import Mathlib
/-!
Shallow embedding of `scripts/improved/run_database.py` (qubo_mapper).

The script batch-runs optimization instances: an exact classical solve, a
quantum solve per penalty strategy, optional spectral-gap analysis, and a
feasibility evaluation, recording everything in a preallocated results
collection (`Datas`, defined in the repository's `ds` module, which is not
part of the sources here and is therefore modelled from the spec).

External collaborators (model parser, exact/quantum solvers, Hamiltonian
builders, the eigen-solver `np.linalg.eigvalsh`, and `os.listdir`) are
opaque: they appear as fields of an `Env`/`Problem` record supplied by the
caller.  Real numbers of the Python code are modelled as `ℚ`; `np.rint`
(round half to even) is implemented exactly.  Python exceptions of the
batch driver are modelled with `Except String`; note that NumPy float
division by zero does not raise, so the normalized-gap division is total
in the model just as in the code.
-/

/-- Rounding mode of `np.rint`: round to nearest, ties to even. -/
def rint (q : ℚ) : ℤ :=
  if Int.fract q < 1/2 then ⌊q⌋
  else if 1/2 < Int.fract q then ⌊q⌋ + 1
  else if ⌊q⌋ % 2 = 0 then ⌊q⌋ else ⌊q⌋ + 1

/-- `np.min` on a 1-D array (0 on the empty list; NumPy would raise there). -/
def npMin : List ℚ → ℚ
  | [] => 0
  | a :: t => t.foldl min a

/-- `np.max` on a 1-D array (0 on the empty list; NumPy would raise there). -/
def npMax : List ℚ → ℚ
  | [] => 0
  | a :: t => t.foldl max a

/-- `np.unique`: sort ascending and remove repeated values. -/
def npUnique (l : List ℚ) : List ℚ :=
  (l.insertionSort (· ≤ ·)).dedup

/-- Last element of a list, with a default (Python `evs[-1]`). -/
def lastD (l : List ℚ) (d : ℚ) : ℚ := l.getLast?.getD d

/-- Matrices as rectangular lists of rationals. -/
def Mat : Type := List (List ℚ)

/-- Scalar multiple of a matrix. -/
def matScale (c : ℚ) (m : Mat) : Mat := m.map (List.map (fun x => c * x))

/-- Entrywise sum of two matrices. -/
def matAdd (m₁ m₂ : Mat) : Mat := List.zipWith (List.zipWith (· + ·)) m₁ m₂

/-- `np.diag` of a vector: the square matrix with the vector on the diagonal. -/
def diagM (v : List ℚ) : Mat :=
  (List.range v.length).map fun r =>
    (List.range v.length).map fun c => if r = c then v.getD r 0 else 0

/-- Status of an optimization result (`qiskit_optimization`). -/
inductive OptStatus where
  | success
  | infeasible
  | other
deriving DecidableEq

/-- Result of a solver call: status, objective value and solution vector. -/
structure SolveResult where
  status : OptStatus
  fval : ℚ
  x : List ℚ

/-- Sense of a linear constraint. -/
inductive Sense where
  | le
  | ge
  | eq
deriving DecidableEq

/-- A constraint of the parsed model: an evaluable left-hand side, a
right-hand side and a sense.  Mirrors the qiskit constraint objects used by
`evaluate_feasibility` (`cons.evaluate(x)`, `cons.rhs`). -/
structure Constraint where
  lhsEval : List ℤ → ℚ
  rhs : ℚ
  sense : Sense

/-- `cons.evaluate(x)`. -/
def Constraint.evaluate (c : Constraint) (x : List ℤ) : ℚ := c.lhsEval x

/-- Whether the candidate solution satisfies the constraint. -/
def Constraint.satisfied (c : Constraint) (x : List ℤ) : Bool :=
  match c.sense with
  | .le => decide (c.evaluate x ≤ c.rhs)
  | .ge => decide (c.rhs ≤ c.evaluate x)
  | .eq => decide (c.evaluate x = c.rhs)

/-- A loaded problem instance, with its (opaque, externally computed) solver
answers and Hamiltonians.  `gap_total` is the solver-provided gap metric
`p.get_gap_total(H, Hc, M)`.  `solve_quantum` returns
(result, chosen penalty M, elapsed time). -/
structure Problem where
  solve_exact : SolveResult
  solve_quantum : String → SolveResult × ℚ × ℚ
  obj_hamiltonian : List ℚ
  constraint_hamiltonian : List ℚ
  gap_total : List ℚ → List ℚ → ℚ → ℚ
  constraints : List Constraint

/-- `p.qp.is_feasible(x)`: every constraint is satisfied. -/
def Problem.is_feasible (p : Problem) (x : List ℤ) : Bool :=
  p.constraints.all (fun c => c.satisfied x)

/-- The third component of `p.qp.get_feasibility_info(x)`: the list of
violated constraints. -/
def Problem.violatedConstraints (p : Problem) (x : List ℤ) : List Constraint :=
  p.constraints.filter (fun c => ! c.satisfied x)

/-- Modelled from the spec: the results collection `Datas` of the missing
`ds` module — fixed-shape numeric arrays indexed by
(size index, sample index, [classical/quantum], strategy index), here as
total functions, preallocated with default values (0 / false). -/
structure Datas where
  bvars : List ℕ
  fval : ℕ → ℕ → ℕ → ℕ → ℚ
  M : ℕ → ℕ → ℕ → ℚ
  time : ℕ → ℕ → ℕ → ℚ
  gap : ℕ → ℕ → ℕ → ℚ
  gap_norm : ℕ → ℕ → ℕ → ℚ
  gap_minimal : ℕ → ℕ → ℕ → ℚ
  is_feasible : ℕ → ℕ → ℕ → Bool
  n_violations : ℕ → ℕ → ℕ → ℕ
  max_violation : ℕ → ℕ → ℕ → ℚ

/-- Modelled from the spec: `Datas(bvars, n_samples, n_M_strategies)`
allocates the arrays with default entries. -/
def Datas.init (bvars : List ℕ) : Datas where
  bvars := bvars
  fval := fun _ _ _ _ => 0
  M := fun _ _ _ => 0
  time := fun _ _ _ => 0
  gap := fun _ _ _ => 0
  gap_norm := fun _ _ _ => 0
  gap_minimal := fun _ _ _ => 0
  is_feasible := fun _ _ _ => false
  n_violations := fun _ _ _ => 0
  max_violation := fun _ _ _ => 0

/-- Point update of a 3-index array. -/
def set3 {α : Type} (f : ℕ → ℕ → ℕ → α) (a b c : ℕ) (v : α) : ℕ → ℕ → ℕ → α :=
  fun x y z => if x = a ∧ y = b ∧ z = c then v else f x y z

/-- Point update of a 4-index array. -/
def set4 {α : Type} (f : ℕ → ℕ → ℕ → ℕ → α) (a b c d : ℕ) (v : α) :
    ℕ → ℕ → ℕ → ℕ → α :=
  fun x y z w => if x = a ∧ y = b ∧ z = c ∧ w = d then v else f x y z w

/-- Address of one write into the results collection, used to log every
store performed by the script. -/
inductive WriteAddr where
  | fvalA (i s c j : ℕ)
  | bigMA (i s j : ℕ)
  | timeA (i s j : ℕ)
  | gapA (i s j : ℕ)
  | gapNormA (i s j : ℕ)
  | gapMinimalA (i s j : ℕ)
  | isFeasibleA (i s j : ℕ)
  | nViolationsA (i s j : ℕ)
  | maxViolationA (i s j : ℕ)
deriving DecidableEq

/-- The opaque environment: external collaborators of the script.
`loadProblem` is `ModelReader.read` + `from_docplex_mp` + `Problem`;
`initH0` is `initial_hamiltonian_adiabatic` from the missing `ds` module;
`eigvalsh` is `np.linalg.eigvalsh`; `listdir` is `os.listdir`. -/
structure Env where
  loadProblem : String → Problem
  initH0 : ℕ → Mat
  eigvalsh : Mat → List ℚ
  listdir : String → List String

/-- `H + M*Hc` on diagonal Hamiltonians stored as vectors. -/
def combineH (H Hc : List ℚ) (M : ℚ) : List ℚ :=
  List.zipWith (fun a b => a + M * b) H Hc

/-- Fixed mixing weight `alpha = .98` of the adiabatic computation. -/
def alphaMix : ℚ := 98/100

/-- `(evs[1] - evs[0])/(evs[-1] - evs[0])` on the deduplicated sorted
eigenvalue list. -/
def minGapOfEvs (evs : List ℚ) : ℚ :=
  (evs.getD 1 0 - evs.getD 0 0) / (lastD evs 0 - evs.getD 0 0)

/-- `H_mix = (1-alpha)*H_0 + alpha*np.diag(H)` with `H_0 = beta_fixed *
initial_hamiltonian_adiabatic(bvars)`. -/
def hMix (env : Env) (bvars : ℕ) (betaFixed : ℚ) (Hp : List ℚ) : Mat :=
  matAdd (matScale (1 - alphaMix) (matScale betaFixed (env.initH0 bvars)))
    (matScale alphaMix (diagM Hp))

/-- One iteration of the `for M_idx in range(len(M_strategies))` loop of
`run_instance` (source lines 38-67): quantum solve, stores of the rounded
objective values, penalty and time, the rounded solution row, and the
optional gap analysis.  Returns the updated `beta_fixed`, the updated
data, the `xs` row, and the log of write addresses in program order. -/
def qstep (p : Problem) (env : Env) (bvars : ℕ) (i s : ℕ) (cfval : ℚ)
    (analyze_gaps analyze_gaps_qite analyze_gaps_adiabatic : Bool)
    (k : ℕ) (Mname : String) (betaFixed : ℚ) (d : Datas) :
    ℚ × Datas × List ℤ × List WriteAddr :=
  let qres := p.solve_quantum Mname
  let M := qres.2.1
  let t := qres.2.2
  let d := { d with fval := set4 d.fval i s 0 k ((rint cfval : ℤ) : ℚ) }
  let d := { d with fval := set4 d.fval i s 1 k ((rint qres.1.fval : ℤ) : ℚ) }
  let d := { d with M := set3 d.M i s k M }
  let d := { d with time := set3 d.time i s k t }
  let row := qres.1.x.map rint
  let ws0 : List WriteAddr :=
    [.fvalA i s 0 k, .fvalA i s 1 k, .bigMA i s k, .timeA i s k]
  if analyze_gaps then
    let H := p.obj_hamiltonian
    let Hc := p.constraint_hamiltonian
    let d := { d with gap := set3 d.gap i s k (p.gap_total H Hc M) }
    if analyze_gaps_qite then
      let Hp := combineH H Hc M
      let min_e := npMin Hp
      let max_e := npMax Hp
      let d := { d with gap_norm := set3 d.gap_norm i s k (d.gap i s k / (max_e - min_e)) }
      if analyze_gaps_adiabatic then
        let beta := max |min_e| |max_e| / (bvars : ℚ)
        let betaFixed := if k = 0 then beta else betaFixed
        let evs := npUnique (env.eigvalsh (hMix env bvars betaFixed Hp))
        let d := { d with gap_minimal := set3 d.gap_minimal i s k (minGapOfEvs evs) }
        (betaFixed, d, row,
          ws0 ++ [.gapA i s k, .gapNormA i s k, .gapMinimalA i s k])
      else
        (betaFixed, d, row, ws0 ++ [.gapA i s k, .gapNormA i s k])
    else
      (betaFixed, d, row, ws0 ++ [.gapA i s k])
  else
    (betaFixed, d, row, ws0)

/-- The whole strategy loop of `run_instance`, iterating `qstep` over the
remaining strategy names, `k` being the index of the first one. -/
def qloop (p : Problem) (env : Env) (bvars : ℕ) (i s : ℕ) (cfval : ℚ)
    (ag agq aga : Bool) :
    List String → ℕ → ℚ → Datas → ℚ × Datas × List (List ℤ) × List WriteAddr
  | [], _, betaFixed, d => (betaFixed, d, [], [])
  | Mname :: rest, k, betaFixed, d =>
    let step := qstep p env bvars i s cfval ag agq aga k Mname betaFixed d
    let recd := qloop p env bvars i s cfval ag agq aga rest (k + 1) step.1 step.2.1
    (recd.1, recd.2.1, step.2.2.1 :: recd.2.2.1, step.2.2.2 ++ recd.2.2.2)

/-- `run_instance` (source lines 15-68): load the problem, solve exactly,
then run the quantum/gap loop over all strategies.  Returns the problem,
the rounded solution rows `xs`, the updated data and the write log. -/
def run_instance (env : Env) (filename : String) (M_strategies : List String)
    (d : Datas) (i s : ℕ) (ag agq aga : Bool) :
    Problem × List (List ℤ) × Datas × List WriteAddr :=
  let bvars := d.bvars.getD i 0
  let p := env.loadProblem filename
  let cres := p.solve_exact
  let out := qloop p env bvars i s cres.fval ag agq aga M_strategies 0 0 d
  (p, out.2.2.1, out.2.1, out.2.2.2)

/-- `evaluate_feasibility` (source lines 110-121). -/
def evaluate_feasibility (p : Problem) (x : List ℤ) (d : Datas)
    (i s j : ℕ) : Datas × List WriteAddr :=
  if p.is_feasible x then
    ({ d with is_feasible := set3 d.is_feasible i s j true }, [.isFeasibleA i s j])
  else
    let violated := p.violatedConstraints x
    let d := { d with n_violations := set3 d.n_violations i s j violated.length }
    let maxViol := violated.foldl
      (fun mv c => if |c.evaluate x - c.rhs| > mv then |c.evaluate x - c.rhs| else mv) 0
    let d := { d with max_violation := set3 d.max_violation i s j maxViol }
    (d, [.nViolationsA i s j, .maxViolationA i s j])

/-- Lexicographic order on character lists (Python string ordering). -/
def lexLe : List Char → List Char → Bool
  | [], _ => true
  | _ :: _, [] => false
  | x :: xs, y :: ys => if x < y then true else if x = y then lexLe xs ys else false

/-- Lexicographic `<=` on strings. -/
def strLeB (a b : String) : Bool := lexLe a.data b.data

/-- Python `sorted` on file names. -/
def sortStr (l : List String) : List String :=
  l.insertionSort (fun a b => strLeB a b = true)

/-- The message of the `ValueError` raised by `run_test` on a folder with
too few instances (source line 95). -/
def folderMsg (folder : String) (found requested : ℕ) : String :=
  "Folder " ++ folder ++ " contains only " ++ toString found ++
    " instances, " ++ toString requested ++ " were requested"

/-- The `for bigM_idx in range(n_M_strategies)` loop of `run_test`
(source lines 102-103), running `evaluate_feasibility` on each strategy's
rounded solution; `j` is the index of the first remaining strategy. -/
def feasLoop (p : Problem) (xs : List (List ℤ)) (i s : ℕ) :
    ℕ → ℕ → Datas → Datas × List WriteAddr
  | 0, _, d => (d, [])
  | r + 1, j, d =>
    let step := evaluate_feasibility p (xs.getD j []) d i s j
    let recd := feasLoop p xs i s r (j + 1) step.1
    (recd.1, step.2 ++ recd.2)

/-- The `for sample in range(n_samples)` loop of `run_test` (source lines
98-103): run the instance of each sample file, then evaluate feasibility
for every strategy.  `r` counts the remaining samples, `cur` is the index
of the current one. -/
def sampleLoop (env : Env) (folder : String) (files : List String)
    (M_strategies : List String) (ag agq aga : Bool) (i : ℕ) :
    ℕ → ℕ → Datas → Datas × List WriteAddr
  | 0, _, d => (d, [])
  | r + 1, cur, d =>
    let filename := folder ++ files.getD cur ""
    let ri := run_instance env filename M_strategies d i cur ag agq aga
    let fe := feasLoop ri.1 ri.2.1 i cur M_strategies.length 0 ri.2.2.1
    let recd := sampleLoop env folder files M_strategies ag agq aga i r (cur + 1) fe.1
    (recd.1, ri.2.2.2 ++ fe.2 ++ recd.2)

/-- The `for i in range(len(bvars))` loop of `run_test` (source lines
89-105): per size, list the folder, fail fast when it holds fewer files
than requested, otherwise run every sample. -/
def sizeLoop (env : Env) (test_set : String) (n_samples : ℕ)
    (M_strategies : List String) (ag agq aga : Bool) :
    List ℕ → ℕ → Datas → Except String (Datas × List WriteAddr)
  | [], _, d => .ok (d, [])
  | n_qubs :: rest, i, d =>
    let folder := test_set ++ "/" ++ toString n_qubs ++ "/"
    let files := sortStr (env.listdir folder)
    if files.length < n_samples then
      .error (folderMsg folder files.length n_samples)
    else
      let st := sampleLoop env folder files M_strategies ag agq aga i n_samples 0 d
      match sizeLoop env test_set n_samples M_strategies ag agq aga rest (i + 1) st.1 with
      | .error e => .error e
      | .ok out => .ok (out.1, st.2 ++ out.2)

/-- `run_test` (source lines 83-106): allocate the results collection and
run the size loop.  A `ValueError` of the driver is `.error`; otherwise the
populated data is returned together with the full write log. -/
def run_test (env : Env) (test_set : String) (bvars : List ℕ) (n_samples : ℕ)
    (M_strategies : List String) (ag agq aga : Bool) :
    Except String (Datas × List WriteAddr) :=
  sizeLoop env test_set n_samples M_strategies ag agq aga bvars 0 (Datas.init bvars)

/-- The write log of a batch run (empty when the run aborted with an
error, since the Python exception discards the results object). -/
def runLog (r : Except String (Datas × List WriteAddr)) : List WriteAddr :=
  match r with
  | .error _ => []
  | .ok out => out.2

/-- The penalty `M` chosen by the quantum solver for a strategy. -/
def Mof (p : Problem) (name : String) : ℚ := (p.solve_quantum name).2.1

/-- The elapsed time reported by the quantum solver for a strategy. -/
def tOf (p : Problem) (name : String) : ℚ := (p.solve_quantum name).2.2

/-- The quantum solver result for a strategy. -/
def qresOf (p : Problem) (name : String) : SolveResult := (p.solve_quantum name).1

/-- The combined Hamiltonian `H' = H + M*Hc` for a strategy's chosen `M`. -/
def HpOf (p : Problem) (name : String) : List ℚ :=
  combineH p.obj_hamiltonian p.constraint_hamiltonian (Mof p name)

/-- The per-variable coupling strength
`beta = np.max(np.abs([min_e, max_e])) / bvars` of a strategy. -/
def betaOf (p : Problem) (bvars : ℕ) (name : String) : ℚ :=
  max |npMin (HpOf p name)| |npMax (HpOf p name)| / (bvars : ℚ)

/-- The minimal-gap value stored by the adiabatic analysis: eigenvalues of
`H_mix`, deduplicated and sorted, then `(evs[1]-evs[0])/(evs[-1]-evs[0])`. -/
def minGapStored (env : Env) (bvars : ℕ) (betaFixed : ℚ) (Hp : List ℚ) : ℚ :=
  minGapOfEvs (npUnique (env.eigvalsh (hMix env bvars betaFixed Hp)))

/-- Modelled from the spec: `p.get_gap_total(H, Hc, M)` of the missing `ds`
module — per the spec's glossary, the spectral gap (difference between the
smallest and next-smallest distinct eigenvalue) of the combined diagonal
Hamiltonian `H + M*Hc` (0 when the spectrum is a single point). -/
def get_gap_total_spec (H Hc : List ℚ) (M : ℚ) : ℚ :=
  let evs := npUnique (combineH H Hc M)
  evs.getD 1 (evs.getD 0 0) - evs.getD 0 0

/-- A concrete problem fixture for witnesses: exact objective 3, quantum
objective 5/2, penalty M = 2, combined Hamiltonian [0, 1]. -/
def pW : Problem where
  solve_exact := { status := .success, fval := 3, x := [1, 0] }
  solve_quantum := fun _ => ({ status := .success, fval := 5/2, x := [1/2, 1] }, 2, 7)
  obj_hamiltonian := [0, 1]
  constraint_hamiltonian := [0, 0]
  gap_total := get_gap_total_spec
  constraints := [{ lhsEval := fun x => ((x.getD 0 0 : ℤ) : ℚ), rhs := 1, sense := .le }]

/-- A concrete environment fixture for witnesses. -/
def envW : Env where
  loadProblem := fun _ => pW
  initH0 := fun n => diagM (List.replicate n 0)
  eigvalsh := fun _ => [0, 0, 1, 2]
  listdir := fun _ => ["b.lp", "a.lp", "c.lp"]

/-- A fixture with two constraints violated by the zero vector with
magnitudes 3/10 and 7/10. -/
def pW2 : Problem where
  solve_exact := { status := .success, fval := 0, x := [0] }
  solve_quantum := fun _ => ({ status := .success, fval := 0, x := [0] }, 1, 0)
  obj_hamiltonian := [0]
  constraint_hamiltonian := [0]
  gap_total := get_gap_total_spec
  constraints :=
    [{ lhsEval := fun x => ((x.getD 0 0 : ℤ) : ℚ) + 3/10, rhs := 0, sense := .le },
     { lhsEval := fun x => ((x.getD 0 0 : ℤ) : ℚ) + 7/10, rhs := 0, sense := .le }]

/-- The per-size folder path `test_set + "/" + str(n_qubs) + "/"`. -/
def folderOf (test_set : String) (n_qubs : ℕ) : String :=
  test_set ++ "/" ++ toString n_qubs ++ "/"

/-- The number of instance files found in a size's folder. -/
def filesCount (env : Env) (test_set : String) (n_qubs : ℕ) : ℕ :=
  (sortStr (env.listdir (folderOf test_set n_qubs))).length

/-- Size index of a write address. -/
def WriteAddr.sizeIdx : WriteAddr → ℕ
  | .fvalA i _ _ _ => i
  | .bigMA i _ _ => i
  | .timeA i _ _ => i
  | .gapA i _ _ => i
  | .gapNormA i _ _ => i
  | .gapMinimalA i _ _ => i
  | .isFeasibleA i _ _ => i
  | .nViolationsA i _ _ => i
  | .maxViolationA i _ _ => i

/-- Sample index of a write address. -/
def WriteAddr.sampleIdx : WriteAddr → ℕ
  | .fvalA _ s _ _ => s
  | .bigMA _ s _ => s
  | .timeA _ s _ => s
  | .gapA _ s _ => s
  | .gapNormA _ s _ => s
  | .gapMinimalA _ s _ => s
  | .isFeasibleA _ s _ => s
  | .nViolationsA _ s _ => s
  | .maxViolationA _ s _ => s

/-- Strategy index of a write address. -/
def WriteAddr.stratIdx : WriteAddr → ℕ
  | .fvalA _ _ _ j => j
  | .bigMA _ _ j => j
  | .timeA _ _ j => j
  | .gapA _ _ j => j
  | .gapNormA _ _ j => j
  | .gapMinimalA _ _ j => j
  | .isFeasibleA _ _ j => j
  | .nViolationsA _ _ j => j
  | .maxViolationA _ _ j => j

/-- Whether the address belongs to the feasibility evaluator's arrays. -/
def WriteAddr.isFeas : WriteAddr → Bool
  | .isFeasibleA _ _ _ => true
  | .nViolationsA _ _ _ => true
  | .maxViolationA _ _ _ => true
  | _ => false

theorem set3_same {α : Type} (f : ℕ → ℕ → ℕ → α) (a b c : ℕ) (v : α) :
    set3 f a b c v a b c = v := by simp [set3]

theorem set3_other {α : Type} (f : ℕ → ℕ → ℕ → α) (a b c : ℕ) (v : α)
    (x y z : ℕ) (h : ¬(x = a ∧ y = b ∧ z = c)) :
    set3 f a b c v x y z = f x y z := by simp [set3, h]

theorem set4_same {α : Type} (f : ℕ → ℕ → ℕ → ℕ → α) (a b c d : ℕ) (v : α) :
    set4 f a b c d v a b c d = v := by simp [set4]

theorem set4_other {α : Type} (f : ℕ → ℕ → ℕ → ℕ → α) (a b c d : ℕ) (v : α)
    (x y z w : ℕ) (h : ¬(x = a ∧ y = b ∧ z = c ∧ w = d)) :
    set4 f a b c d v x y z w = f x y z w := by simp [set4, h]

theorem rint_near (q : ℚ) : |(rint q : ℚ) - q| ≤ 1/2 := by
  have hfr : (⌊q⌋ : ℚ) = q - Int.fract q := by rw [Int.fract]; ring
  have h0 : 0 ≤ Int.fract q := Int.fract_nonneg q
  have h1 : Int.fract q < 1 := Int.fract_lt_one q
  unfold rint
  split_ifs with ha hb hc <;>
    rw [abs_le] <;> push_cast <;> rw [hfr] <;> constructor <;> linarith

theorem foldl_min_le_left (l : List ℚ) (a : ℚ) : l.foldl min a ≤ a := by
  induction l generalizing a with
  | nil => simp
  | cons x t ih => exact le_trans (ih (min a x)) (min_le_left a x)

theorem foldl_min_le_mem (l : List ℚ) (a x : ℚ) (hx : x ∈ l) :
    l.foldl min a ≤ x := by
  induction l generalizing a with
  | nil => simp at hx
  | cons y t ih =>
    rcases List.mem_cons.mp hx with h | h
    · subst h; exact le_trans (foldl_min_le_left t (min a x)) (min_le_right a x)
    · exact ih (min a y) h

theorem foldl_min_mem (l : List ℚ) (a : ℚ) :
    l.foldl min a = a ∨ l.foldl min a ∈ l := by
  induction l generalizing a with
  | nil => left; rfl
  | cons y t ih =>
    rcases ih (min a y) with h | h
    · rcases min_cases a y with ⟨he, _⟩ | ⟨he, _⟩
      · left; simpa [he] using h
      · right; simp only [List.foldl_cons]; rw [h, he]; exact List.mem_cons_self y t
    · right; exact List.mem_cons_of_mem y h

theorem foldl_max_ge_left (l : List ℚ) (a : ℚ) : a ≤ l.foldl max a := by
  induction l generalizing a with
  | nil => simp
  | cons x t ih => exact le_trans (le_max_left a x) (ih (max a x))

theorem foldl_max_ge_mem (l : List ℚ) (a x : ℚ) (hx : x ∈ l) :
    x ≤ l.foldl max a := by
  induction l generalizing a with
  | nil => simp at hx
  | cons y t ih =>
    rcases List.mem_cons.mp hx with h | h
    · subst h; exact le_trans (le_max_right a x) (foldl_max_ge_left t (max a x))
    · exact ih (max a y) h

theorem foldl_max_mem (l : List ℚ) (a : ℚ) :
    l.foldl max a = a ∨ l.foldl max a ∈ l := by
  induction l generalizing a with
  | nil => left; rfl
  | cons y t ih =>
    rcases ih (max a y) with h | h
    · rcases max_cases a y with ⟨he, _⟩ | ⟨he, _⟩
      · left; simpa [he] using h
      · right; simp only [List.foldl_cons]; rw [h, he]; exact List.mem_cons_self y t
    · right; exact List.mem_cons_of_mem y h

theorem npMin_le (l : List ℚ) (x : ℚ) (hx : x ∈ l) : npMin l ≤ x := by
  cases l with
  | nil => simp at hx
  | cons a t =>
    rcases List.mem_cons.mp hx with h | h
    · subst h; exact foldl_min_le_left t x
    · exact foldl_min_le_mem t a x h

theorem npMin_mem (l : List ℚ) (h : l ≠ []) : npMin l ∈ l := by
  cases l with
  | nil => exact absurd rfl h
  | cons a t =>
    rcases foldl_min_mem t a with he | he
    · rw [npMin, he]; exact List.mem_cons_self a t
    · exact List.mem_cons_of_mem a he

theorem npMax_ge (l : List ℚ) (x : ℚ) (hx : x ∈ l) : x ≤ npMax l := by
  cases l with
  | nil => simp at hx
  | cons a t =>
    rcases List.mem_cons.mp hx with h | h
    · subst h; exact foldl_max_ge_left t x
    · exact foldl_max_ge_mem t a x h

theorem npMax_mem (l : List ℚ) (h : l ≠ []) : npMax l ∈ l := by
  cases l with
  | nil => exact absurd rfl h
  | cons a t =>
    rcases foldl_max_mem t a with he | he
    · rw [npMax, he]; exact List.mem_cons_self a t
    · exact List.mem_cons_of_mem a he

theorem mem_npUnique {x : ℚ} {l : List ℚ} : x ∈ npUnique l ↔ x ∈ l := by
  rw [npUnique, List.mem_dedup]
  exact (List.perm_insertionSort _ l).mem_iff

theorem npUnique_sorted (l : List ℚ) : (npUnique l).Sorted (· ≤ ·) :=
  (List.sorted_insertionSort _ l).sublist (List.dedup_sublist _)

theorem qstep_untouched (p : Problem) (env : Env) (bvars i s : ℕ) (cf : ℚ)
    (ag agq aga : Bool) (k : ℕ) (Mn : String) (bf : ℚ) (d : Datas) :
    (qstep p env bvars i s cf ag agq aga k Mn bf d).2.1.bvars = d.bvars ∧
    (qstep p env bvars i s cf ag agq aga k Mn bf d).2.1.is_feasible = d.is_feasible ∧
    (qstep p env bvars i s cf ag agq aga k Mn bf d).2.1.n_violations = d.n_violations ∧
    (qstep p env bvars i s cf ag agq aga k Mn bf d).2.1.max_violation = d.max_violation := by
  cases ag <;> cases agq <;> cases aga <;> simp [qstep]

theorem qstep_fval_frame (p : Problem) (env : Env) (bvars i s : ℕ) (cf : ℚ)
    (ag agq aga : Bool) (k : ℕ) (Mn : String) (bf : ℚ) (d : Datas)
    (a b c w : ℕ) (h : ¬(a = i ∧ b = s ∧ w = k)) :
    (qstep p env bvars i s cf ag agq aga k Mn bf d).2.1.fval a b c w = d.fval a b c w := by
  cases ag <;> cases agq <;> cases aga <;> simp_all [qstep, set4] <;>
    (split_ifs <;> tauto)

theorem qstep_M_frame (p : Problem) (env : Env) (bvars i s : ℕ) (cf : ℚ)
    (ag agq aga : Bool) (k : ℕ) (Mn : String) (bf : ℚ) (d : Datas)
    (a b c : ℕ) (h : ¬(a = i ∧ b = s ∧ c = k)) :
    (qstep p env bvars i s cf ag agq aga k Mn bf d).2.1.M a b c = d.M a b c := by
  cases ag <;> cases agq <;> cases aga <;> simp_all [qstep, set3]

theorem qstep_time_frame (p : Problem) (env : Env) (bvars i s : ℕ) (cf : ℚ)
    (ag agq aga : Bool) (k : ℕ) (Mn : String) (bf : ℚ) (d : Datas)
    (a b c : ℕ) (h : ¬(a = i ∧ b = s ∧ c = k)) :
    (qstep p env bvars i s cf ag agq aga k Mn bf d).2.1.time a b c = d.time a b c := by
  cases ag <;> cases agq <;> cases aga <;> simp_all [qstep, set3]

theorem qstep_gap_frame (p : Problem) (env : Env) (bvars i s : ℕ) (cf : ℚ)
    (ag agq aga : Bool) (k : ℕ) (Mn : String) (bf : ℚ) (d : Datas)
    (a b c : ℕ) (h : ¬(a = i ∧ b = s ∧ c = k)) :
    (qstep p env bvars i s cf ag agq aga k Mn bf d).2.1.gap a b c = d.gap a b c := by
  cases ag <;> cases agq <;> cases aga <;> simp_all [qstep, set3]

theorem qstep_gap_norm_frame (p : Problem) (env : Env) (bvars i s : ℕ) (cf : ℚ)
    (ag agq aga : Bool) (k : ℕ) (Mn : String) (bf : ℚ) (d : Datas)
    (a b c : ℕ) (h : ¬(a = i ∧ b = s ∧ c = k)) :
    (qstep p env bvars i s cf ag agq aga k Mn bf d).2.1.gap_norm a b c = d.gap_norm a b c := by
  cases ag <;> cases agq <;> cases aga <;> simp_all [qstep, set3]

theorem qstep_gap_minimal_frame (p : Problem) (env : Env) (bvars i s : ℕ) (cf : ℚ)
    (ag agq aga : Bool) (k : ℕ) (Mn : String) (bf : ℚ) (d : Datas)
    (a b c : ℕ) (h : ¬(a = i ∧ b = s ∧ c = k)) :
    (qstep p env bvars i s cf ag agq aga k Mn bf d).2.1.gap_minimal a b c = d.gap_minimal a b c := by
  cases ag <;> cases agq <;> cases aga <;> simp_all [qstep, set3]

theorem qstep_fval0 (p : Problem) (env : Env) (bvars i s : ℕ) (cf : ℚ)
    (ag agq aga : Bool) (k : ℕ) (Mn : String) (bf : ℚ) (d : Datas) :
    (qstep p env bvars i s cf ag agq aga k Mn bf d).2.1.fval i s 0 k = ((rint cf : ℤ) : ℚ) := by
  cases ag <;> cases agq <;> cases aga <;> simp [qstep, set4]

theorem qstep_fval1 (p : Problem) (env : Env) (bvars i s : ℕ) (cf : ℚ)
    (ag agq aga : Bool) (k : ℕ) (Mn : String) (bf : ℚ) (d : Datas) :
    (qstep p env bvars i s cf ag agq aga k Mn bf d).2.1.fval i s 1 k
      = ((rint (qresOf p Mn).fval : ℤ) : ℚ) := by
  cases ag <;> cases agq <;> cases aga <;> simp [qstep, set4, qresOf]

theorem qstep_Mval (p : Problem) (env : Env) (bvars i s : ℕ) (cf : ℚ)
    (ag agq aga : Bool) (k : ℕ) (Mn : String) (bf : ℚ) (d : Datas) :
    (qstep p env bvars i s cf ag agq aga k Mn bf d).2.1.M i s k = Mof p Mn := by
  cases ag <;> cases agq <;> cases aga <;> simp [qstep, set3, Mof]

theorem qstep_timeval (p : Problem) (env : Env) (bvars i s : ℕ) (cf : ℚ)
    (ag agq aga : Bool) (k : ℕ) (Mn : String) (bf : ℚ) (d : Datas) :
    (qstep p env bvars i s cf ag agq aga k Mn bf d).2.1.time i s k = tOf p Mn := by
  cases ag <;> cases agq <;> cases aga <;> simp [qstep, set3, tOf]

theorem qstep_row (p : Problem) (env : Env) (bvars i s : ℕ) (cf : ℚ)
    (ag agq aga : Bool) (k : ℕ) (Mn : String) (bf : ℚ) (d : Datas) :
    (qstep p env bvars i s cf ag agq aga k Mn bf d).2.2.1 = (qresOf p Mn).x.map rint := by
  cases ag <;> cases agq <;> cases aga <;> simp [qstep, qresOf]

theorem qstep_gapval (p : Problem) (env : Env) (bvars i s : ℕ) (cf : ℚ)
    (agq aga : Bool) (k : ℕ) (Mn : String) (bf : ℚ) (d : Datas) :
    (qstep p env bvars i s cf true agq aga k Mn bf d).2.1.gap i s k
      = p.gap_total p.obj_hamiltonian p.constraint_hamiltonian (Mof p Mn) := by
  cases agq <;> cases aga <;> simp [qstep, set3, Mof]

theorem qstep_gapnormval (p : Problem) (env : Env) (bvars i s : ℕ) (cf : ℚ)
    (aga : Bool) (k : ℕ) (Mn : String) (bf : ℚ) (d : Datas) :
    (qstep p env bvars i s cf true true aga k Mn bf d).2.1.gap_norm i s k
      = p.gap_total p.obj_hamiltonian p.constraint_hamiltonian (Mof p Mn)
          / (npMax (HpOf p Mn) - npMin (HpOf p Mn)) := by
  cases aga <;> simp [qstep, set3, Mof, HpOf]

theorem qstep_beta_all (p : Problem) (env : Env) (bvars i s : ℕ) (cf : ℚ)
    (k : ℕ) (Mn : String) (bf : ℚ) (d : Datas) :
    (qstep p env bvars i s cf true true true k Mn bf d).1
      = if k = 0 then betaOf p bvars Mn else bf := by
  by_cases hk : k = 0 <;> simp [qstep, betaOf, HpOf, Mof, hk]

theorem qstep_gapminval (p : Problem) (env : Env) (bvars i s : ℕ) (cf : ℚ)
    (k : ℕ) (Mn : String) (bf : ℚ) (d : Datas) :
    (qstep p env bvars i s cf true true true k Mn bf d).2.1.gap_minimal i s k
      = minGapStored env bvars (if k = 0 then betaOf p bvars Mn else bf) (HpOf p Mn) := by
  by_cases hk : k = 0 <;> simp [qstep, set3, minGapStored, betaOf, HpOf, Mof, hk]

theorem qloop_untouched (p : Problem) (env : Env) (bvars i s : ℕ) (cf : ℚ)
    (ag agq aga : Bool) :
    ∀ (rem : List String) (k : ℕ) (bf : ℚ) (d : Datas),
    (qloop p env bvars i s cf ag agq aga rem k bf d).2.1.bvars = d.bvars ∧
    (qloop p env bvars i s cf ag agq aga rem k bf d).2.1.is_feasible = d.is_feasible ∧
    (qloop p env bvars i s cf ag agq aga rem k bf d).2.1.n_violations = d.n_violations ∧
    (qloop p env bvars i s cf ag agq aga rem k bf d).2.1.max_violation = d.max_violation := by
  intro rem
  induction rem with
  | nil => intro k bf d; exact ⟨rfl, rfl, rfl, rfl⟩
  | cons Mn rest ih =>
    intro k bf d
    simp only [qloop]
    have h1 := qstep_untouched p env bvars i s cf ag agq aga k Mn bf d
    have h2 := ih (k + 1) (qstep p env bvars i s cf ag agq aga k Mn bf d).1
      (qstep p env bvars i s cf ag agq aga k Mn bf d).2.1
    exact ⟨h2.1.trans h1.1, h2.2.1.trans h1.2.1,
      h2.2.2.1.trans h1.2.2.1, h2.2.2.2.trans h1.2.2.2⟩

theorem qloop_fval_frame (p : Problem) (env : Env) (bvars i s : ℕ) (cf : ℚ)
    (ag agq aga : Bool) :
    ∀ (rem : List String) (k : ℕ) (bf : ℚ) (d : Datas) (a b c w : ℕ),
    ¬(a = i ∧ b = s ∧ k ≤ w) →
    (qloop p env bvars i s cf ag agq aga rem k bf d).2.1.fval a b c w = d.fval a b c w := by
  intro rem
  induction rem with
  | nil => intro k bf d a b c w _; rfl
  | cons Mn rest ih =>
    intro k bf d a b c w hw
    simp only [qloop]
    rw [ih (k + 1) _ _ a b c w
      (by rintro ⟨h1, h2, h3⟩; exact hw ⟨h1, h2, le_trans (Nat.le_succ k) h3⟩)]
    exact qstep_fval_frame p env bvars i s cf ag agq aga k Mn bf d a b c w
      (by rintro ⟨h1, h2, h3⟩; exact hw ⟨h1, h2, le_of_eq h3.symm⟩)

theorem qloop_M_frame (p : Problem) (env : Env) (bvars i s : ℕ) (cf : ℚ)
    (ag agq aga : Bool) :
    ∀ (rem : List String) (k : ℕ) (bf : ℚ) (d : Datas) (a b c : ℕ),
    ¬(a = i ∧ b = s ∧ k ≤ c) →
    (qloop p env bvars i s cf ag agq aga rem k bf d).2.1.M a b c = d.M a b c := by
  intro rem
  induction rem with
  | nil => intro k bf d a b c _; rfl
  | cons Mn rest ih =>
    intro k bf d a b c hw
    simp only [qloop]
    rw [ih (k + 1) _ _ a b c
      (by rintro ⟨h1, h2, h3⟩; exact hw ⟨h1, h2, le_trans (Nat.le_succ k) h3⟩)]
    exact qstep_M_frame p env bvars i s cf ag agq aga k Mn bf d a b c
      (by rintro ⟨h1, h2, h3⟩; exact hw ⟨h1, h2, le_of_eq h3.symm⟩)

theorem qloop_time_frame (p : Problem) (env : Env) (bvars i s : ℕ) (cf : ℚ)
    (ag agq aga : Bool) :
    ∀ (rem : List String) (k : ℕ) (bf : ℚ) (d : Datas) (a b c : ℕ),
    ¬(a = i ∧ b = s ∧ k ≤ c) →
    (qloop p env bvars i s cf ag agq aga rem k bf d).2.1.time a b c = d.time a b c := by
  intro rem
  induction rem with
  | nil => intro k bf d a b c _; rfl
  | cons Mn rest ih =>
    intro k bf d a b c hw
    simp only [qloop]
    rw [ih (k + 1) _ _ a b c
      (by rintro ⟨h1, h2, h3⟩; exact hw ⟨h1, h2, le_trans (Nat.le_succ k) h3⟩)]
    exact qstep_time_frame p env bvars i s cf ag agq aga k Mn bf d a b c
      (by rintro ⟨h1, h2, h3⟩; exact hw ⟨h1, h2, le_of_eq h3.symm⟩)

theorem qloop_gap_frame (p : Problem) (env : Env) (bvars i s : ℕ) (cf : ℚ)
    (ag agq aga : Bool) :
    ∀ (rem : List String) (k : ℕ) (bf : ℚ) (d : Datas) (a b c : ℕ),
    ¬(a = i ∧ b = s ∧ k ≤ c) →
    (qloop p env bvars i s cf ag agq aga rem k bf d).2.1.gap a b c = d.gap a b c := by
  intro rem
  induction rem with
  | nil => intro k bf d a b c _; rfl
  | cons Mn rest ih =>
    intro k bf d a b c hw
    simp only [qloop]
    rw [ih (k + 1) _ _ a b c
      (by rintro ⟨h1, h2, h3⟩; exact hw ⟨h1, h2, le_trans (Nat.le_succ k) h3⟩)]
    exact qstep_gap_frame p env bvars i s cf ag agq aga k Mn bf d a b c
      (by rintro ⟨h1, h2, h3⟩; exact hw ⟨h1, h2, le_of_eq h3.symm⟩)

theorem qloop_gap_norm_frame (p : Problem) (env : Env) (bvars i s : ℕ) (cf : ℚ)
    (ag agq aga : Bool) :
    ∀ (rem : List String) (k : ℕ) (bf : ℚ) (d : Datas) (a b c : ℕ),
    ¬(a = i ∧ b = s ∧ k ≤ c) →
    (qloop p env bvars i s cf ag agq aga rem k bf d).2.1.gap_norm a b c = d.gap_norm a b c := by
  intro rem
  induction rem with
  | nil => intro k bf d a b c _; rfl
  | cons Mn rest ih =>
    intro k bf d a b c hw
    simp only [qloop]
    rw [ih (k + 1) _ _ a b c
      (by rintro ⟨h1, h2, h3⟩; exact hw ⟨h1, h2, le_trans (Nat.le_succ k) h3⟩)]
    exact qstep_gap_norm_frame p env bvars i s cf ag agq aga k Mn bf d a b c
      (by rintro ⟨h1, h2, h3⟩; exact hw ⟨h1, h2, le_of_eq h3.symm⟩)

theorem qloop_gap_minimal_frame (p : Problem) (env : Env) (bvars i s : ℕ) (cf : ℚ)
    (ag agq aga : Bool) :
    ∀ (rem : List String) (k : ℕ) (bf : ℚ) (d : Datas) (a b c : ℕ),
    ¬(a = i ∧ b = s ∧ k ≤ c) →
    (qloop p env bvars i s cf ag agq aga rem k bf d).2.1.gap_minimal a b c = d.gap_minimal a b c := by
  intro rem
  induction rem with
  | nil => intro k bf d a b c _; rfl
  | cons Mn rest ih =>
    intro k bf d a b c hw
    simp only [qloop]
    rw [ih (k + 1) _ _ a b c
      (by rintro ⟨h1, h2, h3⟩; exact hw ⟨h1, h2, le_trans (Nat.le_succ k) h3⟩)]
    exact qstep_gap_minimal_frame p env bvars i s cf ag agq aga k Mn bf d a b c
      (by rintro ⟨h1, h2, h3⟩; exact hw ⟨h1, h2, le_of_eq h3.symm⟩)

theorem qloop_fval0_get (p : Problem) (env : Env) (bvars i s : ℕ) (cf : ℚ)
    (ag agq aga : Bool) :
    ∀ (rem : List String) (k : ℕ) (bf : ℚ) (d : Datas) (j : ℕ), j < rem.length →
    (qloop p env bvars i s cf ag agq aga rem k bf d).2.1.fval i s 0 (k + j)
      = ((rint cf : ℤ) : ℚ) := by
  intro rem
  induction rem with
  | nil => intro k bf d j hj; simp at hj
  | cons Mn rest ih =>
    intro k bf d j hj
    cases j with
    | zero =>
      simp only [qloop, Nat.add_zero]
      rw [qloop_fval_frame p env bvars i s cf ag agq aga rest (k + 1) _ _ i s 0 k
        (by rintro ⟨-, -, h3⟩; omega)]
      exact qstep_fval0 p env bvars i s cf ag agq aga k Mn bf d
    | succ jj =>
      have hrw : k + (jj + 1) = (k + 1) + jj := by omega
      simp only [qloop, hrw]
      exact ih (k + 1) _ _ jj (by simpa using Nat.lt_of_succ_lt_succ hj)

theorem qloop_fval1_get (p : Problem) (env : Env) (bvars i s : ℕ) (cf : ℚ)
    (ag agq aga : Bool) :
    ∀ (rem : List String) (k : ℕ) (bf : ℚ) (d : Datas) (j : ℕ), j < rem.length →
    (qloop p env bvars i s cf ag agq aga rem k bf d).2.1.fval i s 1 (k + j)
      = ((rint (qresOf p (rem.getD j "")).fval : ℤ) : ℚ) := by
  intro rem
  induction rem with
  | nil => intro k bf d j hj; simp at hj
  | cons Mn rest ih =>
    intro k bf d j hj
    cases j with
    | zero =>
      simp only [qloop, Nat.add_zero, List.getD_cons_zero]
      rw [qloop_fval_frame p env bvars i s cf ag agq aga rest (k + 1) _ _ i s 1 k
        (by rintro ⟨-, -, h3⟩; omega)]
      exact qstep_fval1 p env bvars i s cf ag agq aga k Mn bf d
    | succ jj =>
      have hrw : k + (jj + 1) = (k + 1) + jj := by omega
      simp only [qloop, hrw, List.getD_cons_succ]
      exact ih (k + 1) _ _ jj (by simpa using Nat.lt_of_succ_lt_succ hj)

theorem qloop_M_get (p : Problem) (env : Env) (bvars i s : ℕ) (cf : ℚ)
    (ag agq aga : Bool) :
    ∀ (rem : List String) (k : ℕ) (bf : ℚ) (d : Datas) (j : ℕ), j < rem.length →
    (qloop p env bvars i s cf ag agq aga rem k bf d).2.1.M i s (k + j)
      = Mof p (rem.getD j "") := by
  intro rem
  induction rem with
  | nil => intro k bf d j hj; simp at hj
  | cons Mn rest ih =>
    intro k bf d j hj
    cases j with
    | zero =>
      simp only [qloop, Nat.add_zero, List.getD_cons_zero]
      rw [qloop_M_frame p env bvars i s cf ag agq aga rest (k + 1) _ _ i s k
        (by rintro ⟨-, -, h3⟩; omega)]
      exact qstep_Mval p env bvars i s cf ag agq aga k Mn bf d
    | succ jj =>
      have hrw : k + (jj + 1) = (k + 1) + jj := by omega
      simp only [qloop, hrw, List.getD_cons_succ]
      exact ih (k + 1) _ _ jj (by simpa using Nat.lt_of_succ_lt_succ hj)

theorem qloop_time_get (p : Problem) (env : Env) (bvars i s : ℕ) (cf : ℚ)
    (ag agq aga : Bool) :
    ∀ (rem : List String) (k : ℕ) (bf : ℚ) (d : Datas) (j : ℕ), j < rem.length →
    (qloop p env bvars i s cf ag agq aga rem k bf d).2.1.time i s (k + j)
      = tOf p (rem.getD j "") := by
  intro rem
  induction rem with
  | nil => intro k bf d j hj; simp at hj
  | cons Mn rest ih =>
    intro k bf d j hj
    cases j with
    | zero =>
      simp only [qloop, Nat.add_zero, List.getD_cons_zero]
      rw [qloop_time_frame p env bvars i s cf ag agq aga rest (k + 1) _ _ i s k
        (by rintro ⟨-, -, h3⟩; omega)]
      exact qstep_timeval p env bvars i s cf ag agq aga k Mn bf d
    | succ jj =>
      have hrw : k + (jj + 1) = (k + 1) + jj := by omega
      simp only [qloop, hrw, List.getD_cons_succ]
      exact ih (k + 1) _ _ jj (by simpa using Nat.lt_of_succ_lt_succ hj)

theorem qloop_gap_get (p : Problem) (env : Env) (bvars i s : ℕ) (cf : ℚ)
    (agq aga : Bool) :
    ∀ (rem : List String) (k : ℕ) (bf : ℚ) (d : Datas) (j : ℕ), j < rem.length →
    (qloop p env bvars i s cf true agq aga rem k bf d).2.1.gap i s (k + j)
      = p.gap_total p.obj_hamiltonian p.constraint_hamiltonian (Mof p (rem.getD j "")) := by
  intro rem
  induction rem with
  | nil => intro k bf d j hj; simp at hj
  | cons Mn rest ih =>
    intro k bf d j hj
    cases j with
    | zero =>
      simp only [qloop, Nat.add_zero, List.getD_cons_zero]
      rw [qloop_gap_frame p env bvars i s cf true agq aga rest (k + 1) _ _ i s k
        (by rintro ⟨-, -, h3⟩; omega)]
      exact qstep_gapval p env bvars i s cf agq aga k Mn bf d
    | succ jj =>
      have hrw : k + (jj + 1) = (k + 1) + jj := by omega
      simp only [qloop, hrw, List.getD_cons_succ]
      exact ih (k + 1) _ _ jj (by simpa using Nat.lt_of_succ_lt_succ hj)

theorem qloop_gap_norm_get (p : Problem) (env : Env) (bvars i s : ℕ) (cf : ℚ)
    (aga : Bool) :
    ∀ (rem : List String) (k : ℕ) (bf : ℚ) (d : Datas) (j : ℕ), j < rem.length →
    (qloop p env bvars i s cf true true aga rem k bf d).2.1.gap_norm i s (k + j)
      = p.gap_total p.obj_hamiltonian p.constraint_hamiltonian (Mof p (rem.getD j ""))
          / (npMax (HpOf p (rem.getD j "")) - npMin (HpOf p (rem.getD j ""))) := by
  intro rem
  induction rem with
  | nil => intro k bf d j hj; simp at hj
  | cons Mn rest ih =>
    intro k bf d j hj
    cases j with
    | zero =>
      simp only [qloop, Nat.add_zero, List.getD_cons_zero]
      rw [qloop_gap_norm_frame p env bvars i s cf true true aga rest (k + 1) _ _ i s k
        (by rintro ⟨-, -, h3⟩; omega)]
      exact qstep_gapnormval p env bvars i s cf aga k Mn bf d
    | succ jj =>
      have hrw : k + (jj + 1) = (k + 1) + jj := by omega
      simp only [qloop, hrw, List.getD_cons_succ]
      exact ih (k + 1) _ _ jj (by simpa using Nat.lt_of_succ_lt_succ hj)

theorem qloop_rows (p : Problem) (env : Env) (bvars i s : ℕ) (cf : ℚ)
    (ag agq aga : Bool) :
    ∀ (rem : List String) (k : ℕ) (bf : ℚ) (d : Datas),
    (qloop p env bvars i s cf ag agq aga rem k bf d).2.2.1
      = rem.map (fun Mn => (qresOf p Mn).x.map rint) := by
  intro rem
  induction rem with
  | nil => intro k bf d; rfl
  | cons Mn rest ih =>
    intro k bf d
    simp only [qloop, List.map_cons]
    rw [ih (k + 1) _ _]
    rw [qstep_row p env bvars i s cf ag agq aga k Mn bf d]

theorem qloop_beta_const (p : Problem) (env : Env) (bvars i s : ℕ) (cf : ℚ) :
    ∀ (rem : List String) (k : ℕ) (bf : ℚ) (d : Datas), k ≠ 0 →
    (qloop p env bvars i s cf true true true rem k bf d).1 = bf := by
  intro rem
  induction rem with
  | nil => intro k bf d _; rfl
  | cons Mn rest ih =>
    intro k bf d hk
    simp only [qloop]
    rw [ih (k + 1) _ _ (by omega)]
    rw [qstep_beta_all p env bvars i s cf k Mn bf d, if_neg hk]

theorem qloop_gapmin_ge1 (p : Problem) (env : Env) (bvars i s : ℕ) (cf : ℚ) :
    ∀ (rem : List String) (k : ℕ) (bf : ℚ) (d : Datas) (j : ℕ),
    j < rem.length → k ≠ 0 →
    (qloop p env bvars i s cf true true true rem k bf d).2.1.gap_minimal i s (k + j)
      = minGapStored env bvars bf (HpOf p (rem.getD j "")) := by
  intro rem
  induction rem with
  | nil => intro k bf d j hj _; simp at hj
  | cons Mn rest ih =>
    intro k bf d j hj hk
    have hbeta : (qstep p env bvars i s cf true true true k Mn bf d).1 = bf := by
      rw [qstep_beta_all p env bvars i s cf k Mn bf d, if_neg hk]
    cases j with
    | zero =>
      simp only [qloop, Nat.add_zero, List.getD_cons_zero, hbeta]
      rw [qloop_gap_minimal_frame p env bvars i s cf true true true rest (k + 1) _ _ i s k
        (by rintro ⟨-, -, h3⟩; omega)]
      rw [qstep_gapminval p env bvars i s cf k Mn bf d, if_neg hk]
    | succ jj =>
      have hrw : k + (jj + 1) = (k + 1) + jj := by omega
      simp only [qloop, hrw, List.getD_cons_succ, hbeta]
      exact ih (k + 1) _ _ jj (by simpa using Nat.lt_of_succ_lt_succ hj) (by omega)

theorem qloop_gapmin_zero (p : Problem) (env : Env) (bvars i s : ℕ) (cf : ℚ)
    (Mn : String) (rest : List String) (bf : ℚ) (d : Datas) (j : ℕ)
    (hj : j < (Mn :: rest).length) :
    (qloop p env bvars i s cf true true true (Mn :: rest) 0 bf d).2.1.gap_minimal i s j
      = minGapStored env bvars (betaOf p bvars Mn) (HpOf p ((Mn :: rest).getD j "")) := by
  have hbeta : (qstep p env bvars i s cf true true true 0 Mn bf d).1 = betaOf p bvars Mn := by
    rw [qstep_beta_all p env bvars i s cf 0 Mn bf d, if_pos rfl]
  cases j with
  | zero =>
    simp only [qloop, List.getD_cons_zero, hbeta]
    rw [qloop_gap_minimal_frame p env bvars i s cf true true true rest 1 _ _ i s 0
      (by rintro ⟨-, -, h3⟩; omega)]
    rw [qstep_gapminval p env bvars i s cf 0 Mn bf d, if_pos rfl]
  | succ jj =>
    simp only [qloop, List.getD_cons_succ, hbeta]
    have := qloop_gapmin_ge1 p env bvars i s cf rest 1
      (betaOf p bvars Mn) (qstep p env bvars i s cf true true true 0 Mn bf d).2.1 jj
      (by simpa using Nat.lt_of_succ_lt_succ hj) (by omega)
    simpa [Nat.add_comm] using this

theorem getD_map_lt {α β : Type} (f : α → β) (l : List α) (j : ℕ)
    (hj : j < l.length) (da : α) (db : β) :
    (l.map f).getD j db = f (l.getD j da) := by
  induction l generalizing j with
  | nil => simp at hj
  | cons a t ih =>
    cases j with
    | zero => simp
    | succ jj => simpa using ih jj (by simpa using Nat.lt_of_succ_lt_succ hj)

/-- `run_instance` is the strategy loop started at index 0 with
`beta_fixed = 0` on the loaded problem. -/
theorem run_instance_eq (env : Env) (filename : String) (Ms : List String)
    (d : Datas) (i s : ℕ) (ag agq aga : Bool) :
    run_instance env filename Ms d i s ag agq aga
      = ((env.loadProblem filename),
         (qloop (env.loadProblem filename) env (d.bvars.getD i 0) i s
            (env.loadProblem filename).solve_exact.fval ag agq aga Ms 0 0 d).2.2.1,
         (qloop (env.loadProblem filename) env (d.bvars.getD i 0) i s
            (env.loadProblem filename).solve_exact.fval ag agq aga Ms 0 0 d).2.1,
         (qloop (env.loadProblem filename) env (d.bvars.getD i 0) i s
            (env.loadProblem filename).solve_exact.fval ag agq aga Ms 0 0 d).2.2.2) := rfl

/-- C7: for every sample and strategy slot, the stored classical and
quantum objective values are the solver-returned objectives rounded to the
nearest integer (hence integers), and the solution row handed to the
feasibility check is the solver's vector rounded to nearest integers, as
an integral vector.  `rint` rounds to a nearest integer: it is never more
than 1/2 away. -/
theorem C7_rounded_storage (env : Env) (filename : String)
    (M_strategies : List String) (d : Datas) (i s j : ℕ) (ag agq aga : Bool)
    (hj : j < M_strategies.length) :
    (run_instance env filename M_strategies d i s ag agq aga).2.2.1.fval i s 0 j
      = ((rint (env.loadProblem filename).solve_exact.fval : ℤ) : ℚ) ∧
    (run_instance env filename M_strategies d i s ag agq aga).2.2.1.fval i s 1 j
      = ((rint (qresOf (env.loadProblem filename) (M_strategies.getD j "")).fval : ℤ) : ℚ) ∧
    (run_instance env filename M_strategies d i s ag agq aga).2.1.getD j []
      = (qresOf (env.loadProblem filename) (M_strategies.getD j "")).x.map rint ∧
    (∃ z : ℤ, (run_instance env filename M_strategies d i s ag agq aga).2.2.1.fval i s 0 j
      = (z : ℚ)) ∧
    (∃ z : ℤ, (run_instance env filename M_strategies d i s ag agq aga).2.2.1.fval i s 1 j
      = (z : ℚ)) ∧
    (|((rint (env.loadProblem filename).solve_exact.fval : ℤ) : ℚ)
        - (env.loadProblem filename).solve_exact.fval| ≤ 1/2 ∧
      |((rint (qresOf (env.loadProblem filename) (M_strategies.getD j "")).fval : ℤ) : ℚ)
        - (qresOf (env.loadProblem filename) (M_strategies.getD j "")).fval| ≤ 1/2) := by
  rw [run_instance_eq]
  have h0 := qloop_fval0_get (env.loadProblem filename) env (d.bvars.getD i 0) i s
    (env.loadProblem filename).solve_exact.fval ag agq aga M_strategies 0 0 d j hj
  have h1 := qloop_fval1_get (env.loadProblem filename) env (d.bvars.getD i 0) i s
    (env.loadProblem filename).solve_exact.fval ag agq aga M_strategies 0 0 d j hj
  have hr := qloop_rows (env.loadProblem filename) env (d.bvars.getD i 0) i s
    (env.loadProblem filename).solve_exact.fval ag agq aga M_strategies 0 0 d
  simp only [Nat.zero_add] at h0 h1
  refine ⟨h0, h1, ?_, ⟨_, h0⟩, ⟨_, h1⟩, rint_near _, rint_near _⟩
  rw [hr, getD_map_lt _ _ j hj ""]

/-- C10: after `run_instance`, the rounded exact objective is stored in the
classical slot of every strategy column, replicated by the per-strategy
loop. -/
theorem C10_classical_replicated (env : Env) (filename : String)
    (M_strategies : List String) (d : Datas) (i s : ℕ) (ag agq aga : Bool) :
    ∀ j < M_strategies.length,
    (run_instance env filename M_strategies d i s ag agq aga).2.2.1.fval i s 0 j
      = ((rint (env.loadProblem filename).solve_exact.fval : ℤ) : ℚ) := by
  intro j hj
  rw [run_instance_eq]
  have h0 := qloop_fval0_get (env.loadProblem filename) env (d.bvars.getD i 0) i s
    (env.loadProblem filename).solve_exact.fval ag agq aga M_strategies 0 0 d j hj
  simpa using h0

theorem C7_witness :
    0 < (["m"] : List String).length ∧
    ((run_instance envW "f.lp" ["m"] (Datas.init [2]) 0 0 true true true).2.2.1.fval 0 0 0 0
      = ((rint (envW.loadProblem "f.lp").solve_exact.fval : ℤ) : ℚ) ∧
    (run_instance envW "f.lp" ["m"] (Datas.init [2]) 0 0 true true true).2.2.1.fval 0 0 1 0
      = ((rint (qresOf (envW.loadProblem "f.lp") ((["m"] : List String).getD 0 "")).fval : ℤ) : ℚ) ∧
    (run_instance envW "f.lp" ["m"] (Datas.init [2]) 0 0 true true true).2.1.getD 0 []
      = (qresOf (envW.loadProblem "f.lp") ((["m"] : List String).getD 0 "")).x.map rint ∧
    (∃ z : ℤ, (run_instance envW "f.lp" ["m"] (Datas.init [2]) 0 0 true true true).2.2.1.fval 0 0 0 0
      = (z : ℚ)) ∧
    (∃ z : ℤ, (run_instance envW "f.lp" ["m"] (Datas.init [2]) 0 0 true true true).2.2.1.fval 0 0 1 0
      = (z : ℚ)) ∧
    (|((rint (envW.loadProblem "f.lp").solve_exact.fval : ℤ) : ℚ)
        - (envW.loadProblem "f.lp").solve_exact.fval| ≤ 1/2 ∧
      |((rint (qresOf (envW.loadProblem "f.lp") ((["m"] : List String).getD 0 "")).fval : ℤ) : ℚ)
        - (qresOf (envW.loadProblem "f.lp") ((["m"] : List String).getD 0 "")).fval| ≤ 1/2)) :=
  ⟨by decide,
    C7_rounded_storage envW "f.lp" ["m"] (Datas.init [2]) 0 0 0 true true true (by decide)⟩

theorem C10_witness :
    1 < (["m1", "m2"] : List String).length ∧
    (run_instance envW "f.lp" ["m1", "m2"] (Datas.init [2]) 0 0 false false false).2.2.1.fval 0 0 0 1
      = ((rint (envW.loadProblem "f.lp").solve_exact.fval : ℤ) : ℚ) :=
  ⟨by decide,
    C10_classical_replicated envW "f.lp" ["m1", "m2"] (Datas.init [2]) 0 0 false false false
      1 (by decide)⟩

/-- C3: with normalized-gap analysis on, the stored normalized gap is the
stored raw gap (the solver gap metric on H, Hc, M) divided by
`max(H') - min(H')` for the combined Hamiltonian `H' = H + M*Hc` of the
strategy's chosen penalty `M` (itself the stored penalty). -/
theorem C3_normalized_gap (env : Env) (filename : String)
    (M_strategies : List String) (d : Datas) (i s j : ℕ) (aga : Bool)
    (hj : j < M_strategies.length) :
    (run_instance env filename M_strategies d i s true true aga).2.2.1.gap_norm i s j
      = (run_instance env filename M_strategies d i s true true aga).2.2.1.gap i s j
          / (npMax (HpOf (env.loadProblem filename) (M_strategies.getD j ""))
             - npMin (HpOf (env.loadProblem filename) (M_strategies.getD j ""))) ∧
    (run_instance env filename M_strategies d i s true true aga).2.2.1.gap i s j
      = (env.loadProblem filename).gap_total
          (env.loadProblem filename).obj_hamiltonian
          (env.loadProblem filename).constraint_hamiltonian
          (Mof (env.loadProblem filename) (M_strategies.getD j "")) ∧
    (run_instance env filename M_strategies d i s true true aga).2.2.1.M i s j
      = Mof (env.loadProblem filename) (M_strategies.getD j "") ∧
    HpOf (env.loadProblem filename) (M_strategies.getD j "")
      = combineH (env.loadProblem filename).obj_hamiltonian
          (env.loadProblem filename).constraint_hamiltonian
          (Mof (env.loadProblem filename) (M_strategies.getD j "")) := by
  rw [run_instance_eq]
  have hg := qloop_gap_get (env.loadProblem filename) env (d.bvars.getD i 0) i s
    (env.loadProblem filename).solve_exact.fval true aga M_strategies 0 0 d j hj
  have hgn := qloop_gap_norm_get (env.loadProblem filename) env (d.bvars.getD i 0) i s
    (env.loadProblem filename).solve_exact.fval aga M_strategies 0 0 d j hj
  have hM := qloop_M_get (env.loadProblem filename) env (d.bvars.getD i 0) i s
    (env.loadProblem filename).solve_exact.fval true true aga M_strategies 0 0 d j hj
  simp only [Nat.zero_add] at hg hgn hM
  exact ⟨by rw [hgn, hg], hg, hM, rfl⟩

theorem C3_witness :
    0 < (["m"] : List String).length ∧
    ((run_instance envW "f.lp" ["m"] (Datas.init [2]) 0 0 true true false).2.2.1.gap_norm 0 0 0
      = (run_instance envW "f.lp" ["m"] (Datas.init [2]) 0 0 true true false).2.2.1.gap 0 0 0
          / (npMax (HpOf (envW.loadProblem "f.lp") ((["m"] : List String).getD 0 ""))
             - npMin (HpOf (envW.loadProblem "f.lp") ((["m"] : List String).getD 0 ""))) ∧
    (run_instance envW "f.lp" ["m"] (Datas.init [2]) 0 0 true true false).2.2.1.gap 0 0 0
      = (envW.loadProblem "f.lp").gap_total
          (envW.loadProblem "f.lp").obj_hamiltonian
          (envW.loadProblem "f.lp").constraint_hamiltonian
          (Mof (envW.loadProblem "f.lp") ((["m"] : List String).getD 0 "")) ∧
    (run_instance envW "f.lp" ["m"] (Datas.init [2]) 0 0 true true false).2.2.1.M 0 0 0
      = Mof (envW.loadProblem "f.lp") ((["m"] : List String).getD 0 "") ∧
    HpOf (envW.loadProblem "f.lp") ((["m"] : List String).getD 0 "")
      = combineH (envW.loadProblem "f.lp").obj_hamiltonian
          (envW.loadProblem "f.lp").constraint_hamiltonian
          (Mof (envW.loadProblem "f.lp") ((["m"] : List String).getD 0 ""))) :=
  ⟨by decide,
    C3_normalized_gap envW "f.lp" ["m"] (Datas.init [2]) 0 0 0 false (by decide)⟩

/-- C2: with adiabatic analysis on, every strategy's stored minimal gap is
computed with the initial Hamiltonian scaled by the beta of the FIRST
strategy (index 0); beta itself is
`max(|min(H')|, |max(H')|) / bvars`. -/
theorem C2_beta_reuse (env : Env) (filename : String)
    (M_strategies : List String) (d : Datas) (i s j : ℕ)
    (hj : j < M_strategies.length) :
    (run_instance env filename M_strategies d i s true true true).2.2.1.gap_minimal i s j
      = minGapStored env (d.bvars.getD i 0)
          (betaOf (env.loadProblem filename) (d.bvars.getD i 0) (M_strategies.getD 0 ""))
          (HpOf (env.loadProblem filename) (M_strategies.getD j "")) ∧
    betaOf (env.loadProblem filename) (d.bvars.getD i 0) (M_strategies.getD 0 "")
      = max |npMin (HpOf (env.loadProblem filename) (M_strategies.getD 0 ""))|
            |npMax (HpOf (env.loadProblem filename) (M_strategies.getD 0 ""))|
          / ((d.bvars.getD i 0 : ℕ) : ℚ) := by
  rw [run_instance_eq]
  cases M_strategies with
  | nil => simp at hj
  | cons Mn rest =>
    refine ⟨?_, rfl⟩
    simpa using qloop_gapmin_zero (env.loadProblem filename) env (d.bvars.getD i 0) i s
      (env.loadProblem filename).solve_exact.fval Mn rest 0 d j hj

theorem C2_witness :
    1 < (["m1", "m2"] : List String).length ∧
    ((run_instance envW "f.lp" ["m1", "m2"] (Datas.init [2]) 0 0 true true true).2.2.1.gap_minimal 0 0 1
      = minGapStored envW ((Datas.init [2]).bvars.getD 0 0)
          (betaOf (envW.loadProblem "f.lp") ((Datas.init [2]).bvars.getD 0 0)
            ((["m1", "m2"] : List String).getD 0 ""))
          (HpOf (envW.loadProblem "f.lp") ((["m1", "m2"] : List String).getD 1 "")) ∧
    betaOf (envW.loadProblem "f.lp") ((Datas.init [2]).bvars.getD 0 0)
        ((["m1", "m2"] : List String).getD 0 "")
      = max |npMin (HpOf (envW.loadProblem "f.lp") ((["m1", "m2"] : List String).getD 0 ""))|
            |npMax (HpOf (envW.loadProblem "f.lp") ((["m1", "m2"] : List String).getD 0 ""))|
          / (((Datas.init [2]).bvars.getD 0 0 : ℕ) : ℚ)) :=
  ⟨by decide,
    C2_beta_reuse envW "f.lp" ["m1", "m2"] (Datas.init [2]) 0 0 1 (by decide)⟩

/-- C1: with all three analysis flags on, the stored minimal gap is
obtained by forming `H_mix = (1-alpha)*H_0 + alpha*diag(H')` with
`alpha = 0.98`, taking the eigenvalues of `H_mix`, deduplicating and
sorting them ascending, and storing
`(second smallest - smallest) / (largest - smallest)`; on eigenvalues
{0,0,1,2} the deduplicated values are {0,1,2} and the value is 1/2. -/
theorem C1_minimal_gap (env : Env) (filename : String)
    (M_strategies : List String) (d : Datas) (i s j : ℕ)
    (hj : j < M_strategies.length) :
    (run_instance env filename M_strategies d i s true true true).2.2.1.gap_minimal i s j
      = minGapOfEvs (npUnique (env.eigvalsh
          (matAdd
            (matScale (1 - 98/100)
              (matScale
                (betaOf (env.loadProblem filename) (d.bvars.getD i 0) (M_strategies.getD 0 ""))
                (env.initH0 (d.bvars.getD i 0))))
            (matScale (98/100)
              (diagM (HpOf (env.loadProblem filename) (M_strategies.getD j ""))))))) ∧
    npUnique [0, 0, 1, 2] = [0, 1, 2] ∧
    minGapOfEvs [0, 1, 2] = 1/2 := by
  refine ⟨?_, by decide, ?_⟩
  · rw [run_instance_eq]
    cases M_strategies with
    | nil => simp at hj
    | cons Mn rest =>
      have := qloop_gapmin_zero (env.loadProblem filename) env (d.bvars.getD i 0) i s
        (env.loadProblem filename).solve_exact.fval Mn rest 0 d j hj
      simpa [minGapStored, hMix, alphaMix] using this
  · simp [minGapOfEvs, lastD]

theorem C1_witness :
    0 < (["m"] : List String).length ∧
    ((run_instance envW "f.lp" ["m"] (Datas.init [2]) 0 0 true true true).2.2.1.gap_minimal 0 0 0
      = minGapOfEvs (npUnique (envW.eigvalsh
          (matAdd
            (matScale (1 - 98/100)
              (matScale
                (betaOf (envW.loadProblem "f.lp") ((Datas.init [2]).bvars.getD 0 0)
                  ((["m"] : List String).getD 0 ""))
                (envW.initH0 ((Datas.init [2]).bvars.getD 0 0))))
            (matScale (98/100)
              (diagM (HpOf (envW.loadProblem "f.lp") ((["m"] : List String).getD 0 ""))))))) ∧
    npUnique [0, 0, 1, 2] = [0, 1, 2] ∧
    minGapOfEvs [0, 1, 2] = 1/2) :=
  ⟨by decide,
    C1_minimal_gap envW "f.lp" ["m"] (Datas.init [2]) 0 0 0 (by decide)⟩

theorem foldl_vmax_ge_acc {α : Type} (g : α → ℚ) (l : List α) (acc : ℚ) :
    acc ≤ l.foldl (fun mv c => if g c > mv then g c else mv) acc := by
  induction l generalizing acc with
  | nil => simp
  | cons a t ih =>
    refine le_trans ?_ (ih (if g a > acc then g a else acc))
    split_ifs with h
    · exact le_of_lt h
    · exact le_refl acc

theorem foldl_vmax_ge_mem {α : Type} (g : α → ℚ) (l : List α) (acc : ℚ)
    (a : α) (ha : a ∈ l) :
    g a ≤ l.foldl (fun mv c => if g c > mv then g c else mv) acc := by
  induction l generalizing acc with
  | nil => simp at ha
  | cons b t ih =>
    rcases List.mem_cons.mp ha with h | h
    · subst h
      refine le_trans ?_ (foldl_vmax_ge_acc g t _)
      show g a ≤ if g a > acc then g a else acc
      split_ifs with h
      · exact le_refl _
      · exact le_of_not_lt h
    · exact ih _ h

theorem foldl_vmax_mem_or {α : Type} (g : α → ℚ) (l : List α) (acc : ℚ) :
    l.foldl (fun mv c => if g c > mv then g c else mv) acc = acc ∨
      ∃ a ∈ l, l.foldl (fun mv c => if g c > mv then g c else mv) acc = g a := by
  induction l generalizing acc with
  | nil => left; rfl
  | cons b t ih =>
    rcases ih (if g b > acc then g b else acc) with h | ⟨a, ha, he⟩
    · by_cases hb : g b > acc
      · right
        exact ⟨b, List.mem_cons_self b t, by simpa [hb] using h⟩
      · left; simpa [hb] using h
    · right
      exact ⟨a, List.mem_cons_of_mem b ha, he⟩

theorem satisfied_false_of_mem_violated (p : Problem) (x : List ℤ) (c : Constraint)
    (hc : c ∈ p.violatedConstraints x) : c.satisfied x = false := by
  have := (List.mem_filter.mp hc).2
  simpa using this

theorem violated_ne_nil_of_not_feasible (p : Problem) (x : List ℤ)
    (hf : p.is_feasible x = false) : p.violatedConstraints x ≠ [] := by
  rw [Problem.is_feasible, List.all_eq_false] at hf
  obtain ⟨c, hc, hcf⟩ := hf
  intro hnil
  have : c ∈ p.violatedConstraints x := by
    rw [Problem.violatedConstraints, List.mem_filter]
    exact ⟨hc, by simp [hcf]⟩
  rw [hnil] at this
  simp at this

theorem violation_pos_of_violated (c : Constraint) (x : List ℤ)
    (h : c.satisfied x = false) : 0 < |c.evaluate x - c.rhs| := by
  rw [abs_pos, sub_ne_zero]
  cases hs : c.sense <;> rw [Constraint.satisfied, hs] at h <;>
    simp only [decide_eq_false_iff_not, not_le] at h
  · exact ne_of_gt (by simpa using h)
  · exact ne_of_lt (by simpa using h)
  · simpa using h

/-- C5: the feasibility evaluator marks feasible solutions with a true
flag; for infeasible ones it stores the number of violated constraints and
the maximum violation magnitude `|constraint_value(x) - rhs|` over the
violated constraints. -/
theorem C5_feasibility (p : Problem) (x : List ℤ) (d : Datas) (i s j : ℕ) :
    (p.is_feasible x = true →
      (evaluate_feasibility p x d i s j).1.is_feasible i s j = true) ∧
    (p.is_feasible x = false →
      (evaluate_feasibility p x d i s j).1.n_violations i s j
        = (p.violatedConstraints x).length ∧
      (∀ c ∈ p.violatedConstraints x,
        |c.evaluate x - c.rhs| ≤ (evaluate_feasibility p x d i s j).1.max_violation i s j) ∧
      (∃ c ∈ p.violatedConstraints x,
        (evaluate_feasibility p x d i s j).1.max_violation i s j
          = |c.evaluate x - c.rhs|)) := by
  constructor
  · intro hf
    simp [evaluate_feasibility, hf, set3_same]
  · intro hf
    simp only [evaluate_feasibility, hf, Bool.false_eq_true, if_false]
    refine ⟨by simp [set3_same], ?_, ?_⟩
    · intro c hc
      simpa [set3_same] using
        foldl_vmax_ge_mem (fun c => |c.evaluate x - c.rhs|) (p.violatedConstraints x) 0 c hc
    · rcases foldl_vmax_mem_or (fun c => |c.evaluate x - c.rhs|)
        (p.violatedConstraints x) 0 with h | ⟨c, hc, he⟩
      · exfalso
        obtain ⟨c, hc⟩ := List.exists_mem_of_ne_nil _
          (violated_ne_nil_of_not_feasible p x hf)
        have hpos := violation_pos_of_violated c x
          (satisfied_false_of_mem_violated p x c hc)
        have hge := foldl_vmax_ge_mem (fun c => |c.evaluate x - c.rhs|)
          (p.violatedConstraints x) 0 c hc
        rw [h] at hge
        exact absurd (lt_of_lt_of_le hpos hge) (lt_irrefl 0)
      · exact ⟨c, hc, by simpa [set3_same] using he⟩

theorem C5_witness :
    pW2.is_feasible [0] = false ∧
    ((evaluate_feasibility pW2 [0] (Datas.init [1]) 0 0 0).1.n_violations 0 0 0
        = (pW2.violatedConstraints [0]).length ∧
      (∀ c ∈ pW2.violatedConstraints [0],
        |c.evaluate [0] - c.rhs|
          ≤ (evaluate_feasibility pW2 [0] (Datas.init [1]) 0 0 0).1.max_violation 0 0 0) ∧
      (∃ c ∈ pW2.violatedConstraints [0],
        (evaluate_feasibility pW2 [0] (Datas.init [1]) 0 0 0).1.max_violation 0 0 0
          = |c.evaluate [0] - c.rhs|)) ∧
    (evaluate_feasibility pW2 [0] (Datas.init [1]) 0 0 0).1.n_violations 0 0 0 = 2 ∧
    (evaluate_feasibility pW2 [0] (Datas.init [1]) 0 0 0).1.max_violation 0 0 0 = 7/10 := by
  have hinf : pW2.is_feasible [0] = false := by
    simp only [pW2, Problem.is_feasible, Constraint.satisfied, Constraint.evaluate,
      List.all_cons, List.all_nil]
    norm_num
  refine ⟨hinf, (C5_feasibility pW2 [0] (Datas.init [1]) 0 0 0).2 hinf, ?_, ?_⟩
  · simp only [evaluate_feasibility, hinf, Bool.false_eq_true, if_false]
    simp only [set3_same]
    simp only [pW2, Problem.violatedConstraints, Constraint.satisfied, Constraint.evaluate,
      List.filter]
    norm_num
  · simp only [evaluate_feasibility, hinf, Bool.false_eq_true, if_false]
    simp only [set3_same]
    simp only [pW2, Problem.violatedConstraints, Constraint.satisfied, Constraint.evaluate,
      List.filter]
    norm_num
    rw [abs_of_nonneg (by norm_num), abs_of_nonneg (by norm_num)]
    norm_num

/-- C9: the feasibility evaluator only writes the fields of its branch at
its own slot: for a feasible solution only the feasibility flag (violation
count and maximum violation stay at their previous values), for an
infeasible one only the violation count and maximum violation (the
feasibility flag is never set, in particular never explicitly set to
false); no other results field is modified. -/
theorem C9_feasibility_frame (p : Problem) (x : List ℤ) (d : Datas) (i s j : ℕ) :
    (evaluate_feasibility p x d i s j).1.bvars = d.bvars ∧
    (evaluate_feasibility p x d i s j).1.fval = d.fval ∧
    (evaluate_feasibility p x d i s j).1.M = d.M ∧
    (evaluate_feasibility p x d i s j).1.time = d.time ∧
    (evaluate_feasibility p x d i s j).1.gap = d.gap ∧
    (evaluate_feasibility p x d i s j).1.gap_norm = d.gap_norm ∧
    (evaluate_feasibility p x d i s j).1.gap_minimal = d.gap_minimal ∧
    (p.is_feasible x = true →
      (evaluate_feasibility p x d i s j).1.n_violations = d.n_violations ∧
      (evaluate_feasibility p x d i s j).1.max_violation = d.max_violation ∧
      (∀ a b c : ℕ, ¬(a = i ∧ b = s ∧ c = j) →
        (evaluate_feasibility p x d i s j).1.is_feasible a b c = d.is_feasible a b c)) ∧
    (p.is_feasible x = false →
      (evaluate_feasibility p x d i s j).1.is_feasible = d.is_feasible ∧
      (∀ a b c : ℕ, ¬(a = i ∧ b = s ∧ c = j) →
        (evaluate_feasibility p x d i s j).1.n_violations a b c = d.n_violations a b c ∧
        (evaluate_feasibility p x d i s j).1.max_violation a b c = d.max_violation a b c)) := by
  by_cases hf : p.is_feasible x = true
  · have e : evaluate_feasibility p x d i s j
        = ({ d with is_feasible := set3 d.is_feasible i s j true }, [.isFeasibleA i s j]) := by
      simp [evaluate_feasibility, hf]
    rw [e]
    refine ⟨rfl, rfl, rfl, rfl, rfl, rfl, rfl,
      fun _ => ⟨rfl, rfl, fun a b c h => set3_other _ _ _ _ _ _ _ _ h⟩,
      fun hff => absurd hf (by simp [hff])⟩
  · have hff : p.is_feasible x = false := by simpa using hf
    have e : evaluate_feasibility p x d i s j
        = ({ d with
              n_violations := set3 d.n_violations i s j (p.violatedConstraints x).length,
              max_violation := set3 d.max_violation i s j
                ((p.violatedConstraints x).foldl
                  (fun mv c => if |c.evaluate x - c.rhs| > mv then |c.evaluate x - c.rhs| else mv)
                  0) },
            [.nViolationsA i s j, .maxViolationA i s j]) := by
      simp [evaluate_feasibility, hff]
    rw [e]
    exact ⟨rfl, rfl, rfl, rfl, rfl, rfl, rfl,
      fun ht => absurd ht hf,
      fun _ => ⟨rfl, fun a b c h =>
        ⟨set3_other _ _ _ _ _ _ _ _ h, set3_other _ _ _ _ _ _ _ _ h⟩⟩⟩

theorem C9_witness :
    pW.is_feasible [1, 0] = true ∧
    (evaluate_feasibility pW [1, 0] (Datas.init [2]) 0 0 0).1.fval = (Datas.init [2]).fval ∧
    (evaluate_feasibility pW [1, 0] (Datas.init [2]) 0 0 0).1.gap = (Datas.init [2]).gap ∧
    ((evaluate_feasibility pW [1, 0] (Datas.init [2]) 0 0 0).1.n_violations
        = (Datas.init [2]).n_violations ∧
      (evaluate_feasibility pW [1, 0] (Datas.init [2]) 0 0 0).1.max_violation
        = (Datas.init [2]).max_violation ∧
      (∀ a b c : ℕ, ¬(a = 0 ∧ b = 0 ∧ c = 0) →
        (evaluate_feasibility pW [1, 0] (Datas.init [2]) 0 0 0).1.is_feasible a b c
          = (Datas.init [2]).is_feasible a b c)) := by
  have hfe : pW.is_feasible [1, 0] = true := by
    simp only [pW, Problem.is_feasible, Constraint.satisfied, Constraint.evaluate,
      List.all_cons, List.all_nil]
    norm_num
  have h := C9_feasibility_frame pW [1, 0] (Datas.init [2]) 0 0 0
  exact ⟨hfe, h.2.1, h.2.2.2.2.1, h.2.2.2.2.2.2.2.1 hfe⟩

theorem npMin_le_npMax (l : List ℚ) (hl : l ≠ []) : npMin l ≤ npMax l :=
  npMax_ge l (npMin l) (npMin_mem l hl)

theorem npUnique_two_le_length (l : List ℚ) (hw : npMax l - npMin l ≠ 0) :
    2 ≤ (npUnique l).length := by
  have hl : l ≠ [] := by rintro rfl; simp [npMin, npMax] at hw
  have hab : npMin l ≠ npMax l := fun he => hw (by rw [he, sub_self])
  have ha' : npMin l ∈ npUnique l := mem_npUnique.mpr (npMin_mem l hl)
  have hb' : npMax l ∈ npUnique l := mem_npUnique.mpr (npMax_mem l hl)
  cases hu : npUnique l with
  | nil => rw [hu] at ha'; simp at ha'
  | cons x t =>
    cases t with
    | nil =>
      rw [hu] at ha' hb'
      simp only [List.mem_singleton] at ha' hb'
      exact absurd (ha'.trans hb'.symm) hab
    | cons y t2 => simp

/-- The spec-modelled gap metric on a nonconstant combined Hamiltonian is
nonnegative and no larger than the spectral width. -/
theorem gap_total_spec_bounds (H Hc : List ℚ) (M : ℚ)
    (hw : npMax (combineH H Hc M) - npMin (combineH H Hc M) ≠ 0) :
    0 ≤ get_gap_total_spec H Hc M ∧
    get_gap_total_spec H Hc M ≤ npMax (combineH H Hc M) - npMin (combineH H Hc M) := by
  have h2 := npUnique_two_le_length (combineH H Hc M) hw
  have hsort := npUnique_sorted (combineH H Hc M)
  cases hu : npUnique (combineH H Hc M) with
  | nil => rw [hu] at h2; simp at h2
  | cons e0 t =>
    cases t with
    | nil => rw [hu] at h2; simp at h2
    | cons e1 t2 =>
      rw [hu] at hsort
      have h01 : e0 ≤ e1 := (List.sorted_cons.mp hsort).1 e1 (List.mem_cons_self e1 t2)
      have he0 : e0 ∈ combineH H Hc M := by
        rw [← mem_npUnique, hu]; exact List.mem_cons_self e0 (e1 :: t2)
      have he1 : e1 ∈ combineH H Hc M := by
        rw [← mem_npUnique, hu]
        exact List.mem_cons_of_mem e0 (List.mem_cons_self e1 t2)
      have hlow : npMin (combineH H Hc M) ≤ e0 := npMin_le _ _ he0
      have hhigh : e1 ≤ npMax (combineH H Hc M) := npMax_ge _ _ he1
      rw [get_gap_total_spec, hu]
      simp only [List.getD_cons_zero, List.getD_cons_succ]
      constructor
      · simpa using h01
      · linarith

/-- C4: when the spectral width of the combined Hamiltonian is nonzero and
the solver gap metric is the spectral gap of that Hamiltonian (the `ds`
module's `get_gap_total`, modelled from the spec), the stored normalized
gap lies in [-1, 1]; when the width is zero the stored slot still receives
the (total) quotient `gap / 0` — the division is performed and no error is
raised, mirroring NumPy float division, which never raises. -/
theorem C4_normalized_gap_bounds (env : Env) (filename : String)
    (M_strategies : List String) (d : Datas) (i s j : ℕ) (aga : Bool)
    (hj : j < M_strategies.length)
    (hspec : (env.loadProblem filename).gap_total = get_gap_total_spec) :
    (npMax (HpOf (env.loadProblem filename) (M_strategies.getD j ""))
        - npMin (HpOf (env.loadProblem filename) (M_strategies.getD j "")) ≠ 0 →
      -1 ≤ (run_instance env filename M_strategies d i s true true aga).2.2.1.gap_norm i s j ∧
      (run_instance env filename M_strategies d i s true true aga).2.2.1.gap_norm i s j ≤ 1) ∧
    (npMax (HpOf (env.loadProblem filename) (M_strategies.getD j ""))
        - npMin (HpOf (env.loadProblem filename) (M_strategies.getD j "")) = 0 →
      (run_instance env filename M_strategies d i s true true aga).2.2.1.gap_norm i s j
        = get_gap_total_spec (env.loadProblem filename).obj_hamiltonian
            (env.loadProblem filename).constraint_hamiltonian
            (Mof (env.loadProblem filename) (M_strategies.getD j "")) / 0) := by
  have hgn := qloop_gap_norm_get (env.loadProblem filename) env (d.bvars.getD i 0) i s
    (env.loadProblem filename).solve_exact.fval aga M_strategies 0 0 d j hj
  simp only [Nat.zero_add, HpOf] at hgn
  rw [run_instance_eq]
  simp only [HpOf]
  constructor
  · intro hw
    rw [hgn, hspec]
    have hb := gap_total_spec_bounds (env.loadProblem filename).obj_hamiltonian
      (env.loadProblem filename).constraint_hamiltonian
      (Mof (env.loadProblem filename) (M_strategies.getD j "")) hw
    set l := combineH (env.loadProblem filename).obj_hamiltonian
      (env.loadProblem filename).constraint_hamiltonian
      (Mof (env.loadProblem filename) (M_strategies.getD j "")) with hl
    have hwpos : 0 < npMax l - npMin l := by
      rcases lt_or_eq_of_le (sub_nonneg.mpr (npMin_le_npMax l (by
        rintro hnil
        rw [hnil] at hw
        simp [npMin, npMax] at hw))) with h | h
      · exact h
      · exact absurd h.symm hw
    constructor
    · refine le_trans (by norm_num) (div_nonneg hb.1 (le_of_lt hwpos))
    · rw [div_le_one hwpos]
      exact hb.2
  · intro hw
    rw [hgn, hspec, hw]

theorem C4_witness :
    (0 < (["m"] : List String).length ∧
      (envW.loadProblem "f.lp").gap_total = get_gap_total_spec) ∧
    ((npMax (HpOf (envW.loadProblem "f.lp") ((["m"] : List String).getD 0 ""))
        - npMin (HpOf (envW.loadProblem "f.lp") ((["m"] : List String).getD 0 "")) ≠ 0 →
      -1 ≤ (run_instance envW "f.lp" ["m"] (Datas.init [2]) 0 0 true true false).2.2.1.gap_norm 0 0 0 ∧
      (run_instance envW "f.lp" ["m"] (Datas.init [2]) 0 0 true true false).2.2.1.gap_norm 0 0 0 ≤ 1) ∧
    (npMax (HpOf (envW.loadProblem "f.lp") ((["m"] : List String).getD 0 ""))
        - npMin (HpOf (envW.loadProblem "f.lp") ((["m"] : List String).getD 0 "")) = 0 →
      (run_instance envW "f.lp" ["m"] (Datas.init [2]) 0 0 true true false).2.2.1.gap_norm 0 0 0
        = get_gap_total_spec (envW.loadProblem "f.lp").obj_hamiltonian
            (envW.loadProblem "f.lp").constraint_hamiltonian
            (Mof (envW.loadProblem "f.lp") ((["m"] : List String).getD 0 "")) / 0)) :=
  ⟨⟨by decide, rfl⟩,
    C4_normalized_gap_bounds envW "f.lp" ["m"] (Datas.init [2]) 0 0 0 false (by decide) rfl⟩

theorem sizeLoop_error (env : Env) (test_set : String) (n_samples : ℕ)
    (Ms : List String) (ag agq aga : Bool) :
    ∀ (pre : List ℕ) (q : ℕ) (post : List ℕ) (i : ℕ) (d : Datas),
    (∀ b ∈ pre, ¬ filesCount env test_set b < n_samples) →
    filesCount env test_set q < n_samples →
    sizeLoop env test_set n_samples Ms ag agq aga (pre ++ q :: post) i d
      = .error (folderMsg (folderOf test_set q) (filesCount env test_set q) n_samples) := by
  intro pre
  induction pre with
  | nil =>
    intro q post i d _ hq
    simp only [List.nil_append, sizeLoop]
    simp only [filesCount, folderOf] at hq
    rw [if_pos hq]
    rfl
  | cons b rest ih =>
    intro q post i d hpre hq
    have hb : ¬ filesCount env test_set b < n_samples :=
      hpre b (List.mem_cons_self b rest)
    simp only [List.cons_append, sizeLoop]
    simp only [filesCount, folderOf] at hb
    rw [if_neg hb]
    have := ih q post (i + 1)
      (sampleLoop env (test_set ++ "/" ++ toString b ++ "/")
        (sortStr (env.listdir (test_set ++ "/" ++ toString b ++ "/"))) Ms ag agq aga i
        n_samples 0 d).1
      (fun b2 hb2 => hpre b2 (List.mem_cons_of_mem b hb2)) hq
    simp only [List.append_eq]
    rw [this]

/-- C6: when a size's folder holds fewer instance files than the requested
number of samples (and every earlier size had enough), the batch driver
aborts the whole run with a `ValueError` whose message names the folder,
the number of files found and the number requested; no sample of that size
is processed (the error is raised before the sample loop and is the
run's entire result). -/
theorem C6_insufficient_files (env : Env) (test_set : String) (bvars : List ℕ)
    (n_samples : ℕ) (M_strategies : List String) (ag agq aga : Bool)
    (pre post : List ℕ) (q : ℕ)
    (hsplit : bvars = pre ++ q :: post)
    (hpre : ∀ b ∈ pre, ¬ filesCount env test_set b < n_samples)
    (hq : filesCount env test_set q < n_samples) :
    run_test env test_set bvars n_samples M_strategies ag agq aga
      = .error (folderMsg (folderOf test_set q) (filesCount env test_set q) n_samples) ∧
    (∃ t1 t2 t3 t4 : String,
      folderMsg (folderOf test_set q) (filesCount env test_set q) n_samples
        = t1 ++ folderOf test_set q ++ t2 ++ toString (filesCount env test_set q)
            ++ t3 ++ toString n_samples ++ t4) := by
  constructor
  · rw [run_test, hsplit]
    exact sizeLoop_error env test_set n_samples M_strategies ag agq aga pre q post 0
      (Datas.init (pre ++ q :: post)) hpre hq
  · exact ⟨"Folder ", " contains only ", " instances, ", " were requested", rfl⟩

theorem C6_witness :
    ([6] : List ℕ) = [] ++ 6 :: [] ∧
    (∀ b ∈ ([] : List ℕ), ¬ filesCount envW "ts" b < 5) ∧
    filesCount envW "ts" 6 < 5 ∧
    (run_test envW "ts" [6] 5 ["m"] false false false
      = .error (folderMsg (folderOf "ts" 6) (filesCount envW "ts" 6) 5) ∧
    (∃ t1 t2 t3 t4 : String,
      folderMsg (folderOf "ts" 6) (filesCount envW "ts" 6) 5
        = t1 ++ folderOf "ts" 6 ++ t2 ++ toString (filesCount envW "ts" 6)
            ++ t3 ++ toString 5 ++ t4)) :=
  ⟨rfl, by simp, by decide,
    C6_insufficient_files envW "ts" [6] 5 ["m"] false false false [] [] 6 rfl
      (by simp) (by decide)⟩

theorem qstep_log_props (p : Problem) (env : Env) (bvars i s : ℕ) (cf : ℚ)
    (ag agq aga : Bool) (k : ℕ) (Mn : String) (bf : ℚ) (d : Datas) :
    ∀ a ∈ (qstep p env bvars i s cf ag agq aga k Mn bf d).2.2.2,
      a.sizeIdx = i ∧ a.sampleIdx = s ∧ a.stratIdx = k ∧ a.isFeas = false := by
  cases ag <;> cases agq <;> cases aga <;>
    simp [qstep, List.forall_mem_cons, WriteAddr.sizeIdx, WriteAddr.sampleIdx,
      WriteAddr.stratIdx, WriteAddr.isFeas]

theorem qstep_log_nodup (p : Problem) (env : Env) (bvars i s : ℕ) (cf : ℚ)
    (ag agq aga : Bool) (k : ℕ) (Mn : String) (bf : ℚ) (d : Datas) :
    (qstep p env bvars i s cf ag agq aga k Mn bf d).2.2.2.Nodup := by
  cases ag <;> cases agq <;> cases aga <;> simp [qstep]

theorem qloop_log_props (p : Problem) (env : Env) (bvars i s : ℕ) (cf : ℚ)
    (ag agq aga : Bool) :
    ∀ (rem : List String) (k : ℕ) (bf : ℚ) (d : Datas),
    ∀ a ∈ (qloop p env bvars i s cf ag agq aga rem k bf d).2.2.2,
      a.sizeIdx = i ∧ a.sampleIdx = s ∧ k ≤ a.stratIdx ∧ a.isFeas = false := by
  intro rem
  induction rem with
  | nil => intro k bf d a ha; simp [qloop] at ha
  | cons Mn rest ih =>
    intro k bf d a ha
    simp only [qloop, List.mem_append] at ha
    rcases ha with ha | ha
    · obtain ⟨h1, h2, h3, h4⟩ := qstep_log_props p env bvars i s cf ag agq aga k Mn bf d a ha
      exact ⟨h1, h2, le_of_eq h3.symm, h4⟩
    · obtain ⟨h1, h2, h3, h4⟩ := ih (k + 1) _ _ a ha
      exact ⟨h1, h2, le_trans (Nat.le_succ k) h3, h4⟩

theorem qloop_log_nodup (p : Problem) (env : Env) (bvars i s : ℕ) (cf : ℚ)
    (ag agq aga : Bool) :
    ∀ (rem : List String) (k : ℕ) (bf : ℚ) (d : Datas),
    (qloop p env bvars i s cf ag agq aga rem k bf d).2.2.2.Nodup := by
  intro rem
  induction rem with
  | nil => intro k bf d; simp [qloop]
  | cons Mn rest ih =>
    intro k bf d
    simp only [qloop]
    refine List.Nodup.append (qstep_log_nodup p env bvars i s cf ag agq aga k Mn bf d)
      (ih (k + 1) _ _) ?_
    rw [List.disjoint_left]
    intro a ha har
    have h1 := (qstep_log_props p env bvars i s cf ag agq aga k Mn bf d a ha).2.2.1
    have h2 := (qloop_log_props p env bvars i s cf ag agq aga rest (k + 1) _ _ a har).2.2.1
    omega

theorem evaluate_feasibility_log_props (p : Problem) (x : List ℤ) (d : Datas)
    (i s j : ℕ) :
    ∀ a ∈ (evaluate_feasibility p x d i s j).2,
      a.sizeIdx = i ∧ a.sampleIdx = s ∧ a.stratIdx = j ∧ a.isFeas = true := by
  by_cases hf : p.is_feasible x = true <;>
    simp [evaluate_feasibility, hf, List.forall_mem_cons, WriteAddr.sizeIdx,
      WriteAddr.sampleIdx, WriteAddr.stratIdx, WriteAddr.isFeas]

theorem evaluate_feasibility_log_nodup (p : Problem) (x : List ℤ) (d : Datas)
    (i s j : ℕ) :
    (evaluate_feasibility p x d i s j).2.Nodup := by
  by_cases hf : p.is_feasible x = true <;> simp [evaluate_feasibility, hf]

theorem feasLoop_log_props (p : Problem) (xs : List (List ℤ)) (i s : ℕ) :
    ∀ (r j : ℕ) (d : Datas),
    ∀ a ∈ (feasLoop p xs i s r j d).2,
      a.sizeIdx = i ∧ a.sampleIdx = s ∧ j ≤ a.stratIdx ∧ a.isFeas = true := by
  intro r
  induction r with
  | zero => intro j d a ha; simp [feasLoop] at ha
  | succ rr ih =>
    intro j d a ha
    simp only [feasLoop, List.mem_append] at ha
    rcases ha with ha | ha
    · obtain ⟨h1, h2, h3, h4⟩ := evaluate_feasibility_log_props p (xs.getD j []) d i s j a ha
      exact ⟨h1, h2, le_of_eq h3.symm, h4⟩
    · obtain ⟨h1, h2, h3, h4⟩ := ih (j + 1) _ a ha
      exact ⟨h1, h2, le_trans (Nat.le_succ j) h3, h4⟩

theorem feasLoop_log_nodup (p : Problem) (xs : List (List ℤ)) (i s : ℕ) :
    ∀ (r j : ℕ) (d : Datas), (feasLoop p xs i s r j d).2.Nodup := by
  intro r
  induction r with
  | zero => intro j d; simp [feasLoop]
  | succ rr ih =>
    intro j d
    simp only [feasLoop]
    refine List.Nodup.append (evaluate_feasibility_log_nodup p (xs.getD j []) d i s j)
      (ih (j + 1) _) ?_
    rw [List.disjoint_left]
    intro a ha har
    have h1 := (evaluate_feasibility_log_props p (xs.getD j []) d i s j a ha).2.2.1
    have h2 := (feasLoop_log_props p xs i s rr (j + 1) _ a har).2.2.1
    omega

theorem run_instance_log_props (env : Env) (filename : String) (Ms : List String)
    (d : Datas) (i s : ℕ) (ag agq aga : Bool) :
    ∀ a ∈ (run_instance env filename Ms d i s ag agq aga).2.2.2,
      a.sizeIdx = i ∧ a.sampleIdx = s ∧ a.isFeas = false := by
  intro a ha
  rw [run_instance_eq] at ha
  obtain ⟨h1, h2, _, h4⟩ := qloop_log_props (env.loadProblem filename) env
    (d.bvars.getD i 0) i s (env.loadProblem filename).solve_exact.fval
    ag agq aga Ms 0 0 d a ha
  exact ⟨h1, h2, h4⟩

theorem run_instance_log_nodup (env : Env) (filename : String) (Ms : List String)
    (d : Datas) (i s : ℕ) (ag agq aga : Bool) :
    (run_instance env filename Ms d i s ag agq aga).2.2.2.Nodup := by
  rw [run_instance_eq]
  exact qloop_log_nodup (env.loadProblem filename) env (d.bvars.getD i 0) i s
    (env.loadProblem filename).solve_exact.fval ag agq aga Ms 0 0 d

theorem sampleLoop_log_props (env : Env) (folder : String) (files : List String)
    (Ms : List String) (ag agq aga : Bool) (i : ℕ) :
    ∀ (r cur : ℕ) (d : Datas),
    ∀ a ∈ (sampleLoop env folder files Ms ag agq aga i r cur d).2,
      a.sizeIdx = i ∧ cur ≤ a.sampleIdx := by
  intro r
  induction r with
  | zero => intro cur d a ha; simp [sampleLoop] at ha
  | succ rr ih =>
    intro cur d a ha
    simp only [sampleLoop, List.mem_append] at ha
    rcases ha with (ha | ha) | ha
    · obtain ⟨h1, h2, _⟩ := run_instance_log_props env (folder ++ files.getD cur "")
        Ms d i cur ag agq aga a ha
      exact ⟨h1, le_of_eq h2.symm⟩
    · obtain ⟨h1, h2, _, _⟩ := feasLoop_log_props _ _ i cur Ms.length 0 _ a ha
      exact ⟨h1, le_of_eq h2.symm⟩
    · obtain ⟨h1, h2⟩ := ih (cur + 1) _ a ha
      exact ⟨h1, le_trans (Nat.le_succ cur) h2⟩

theorem sampleLoop_log_nodup (env : Env) (folder : String) (files : List String)
    (Ms : List String) (ag agq aga : Bool) (i : ℕ) :
    ∀ (r cur : ℕ) (d : Datas),
    (sampleLoop env folder files Ms ag agq aga i r cur d).2.Nodup := by
  intro r
  induction r with
  | zero => intro cur d; simp [sampleLoop]
  | succ rr ih =>
    intro cur d
    simp only [sampleLoop, List.append_assoc]
    refine List.Nodup.append
      (run_instance_log_nodup env (folder ++ files.getD cur "") Ms d i cur ag agq aga)
      (List.Nodup.append (feasLoop_log_nodup _ _ i cur Ms.length 0 _) (ih (cur + 1) _) ?_)
      ?_
    · rw [List.disjoint_left]
      intro a ha har
      have h1 := (feasLoop_log_props _ _ i cur Ms.length 0 _ a ha).2.1
      have h2 := (sampleLoop_log_props env folder files Ms ag agq aga i rr (cur + 1) _ a har).2
      omega
    · rw [List.disjoint_left]
      intro a ha har
      obtain ⟨-, hsam, hfe⟩ := run_instance_log_props env (folder ++ files.getD cur "")
        Ms d i cur ag agq aga a ha
      rcases List.mem_append.mp har with hb | hb
      · have := (feasLoop_log_props _ _ i cur Ms.length 0 _ a hb).2.2.2
        rw [hfe] at this
        exact Bool.false_ne_true this
      · have := (sampleLoop_log_props env folder files Ms ag agq aga i rr (cur + 1) _ a hb).2
        omega

theorem sizeLoop_ok_log (env : Env) (test_set : String) (n_samples : ℕ)
    (Ms : List String) (ag agq aga : Bool) :
    ∀ (sizes : List ℕ) (i : ℕ) (d : Datas) (out : Datas × List WriteAddr),
    sizeLoop env test_set n_samples Ms ag agq aga sizes i d = .ok out →
    (∀ a ∈ out.2, i ≤ a.sizeIdx) ∧ out.2.Nodup := by
  intro sizes
  induction sizes with
  | nil =>
    intro i d out hok
    simp only [sizeLoop] at hok
    cases hok
    exact ⟨by intro a ha; simp at ha, List.nodup_nil⟩
  | cons b rest ih =>
    intro i d out hok
    simp only [sizeLoop] at hok
    by_cases hlt : (sortStr (env.listdir (test_set ++ "/" ++ toString b ++ "/"))).length
        < n_samples
    · rw [if_pos hlt] at hok
      cases hok
    · rw [if_neg hlt] at hok
      cases hrec : sizeLoop env test_set n_samples Ms ag agq aga rest (i + 1)
          (sampleLoop env (test_set ++ "/" ++ toString b ++ "/")
            (sortStr (env.listdir (test_set ++ "/" ++ toString b ++ "/")))
            Ms ag agq aga i n_samples 0 d).1 with
      | error e => rw [hrec] at hok; cases hok
      | ok out2 =>
        rw [hrec] at hok
        cases hok
        obtain ⟨hge, hnd⟩ := ih (i + 1) _ out2 hrec
        constructor
        · intro a ha
          rcases List.mem_append.mp ha with hb | hb
          · exact le_of_eq ((sampleLoop_log_props env _ _ Ms ag agq aga i
              n_samples 0 d a hb).1).symm
          · exact le_trans (Nat.le_succ i) (hge a hb)
        · refine List.Nodup.append
            (sampleLoop_log_nodup env _ _ Ms ag agq aga i n_samples 0 d) hnd ?_
          rw [List.disjoint_left]
          intro a ha hb
          have h1 := (sampleLoop_log_props env _ _ Ms ag agq aga i n_samples 0 d a ha).1
          have h2 := hge a hb
          omega

/-- C8: over an entire (completed) batch run, no results-array index is
written twice: the full log of write addresses — objective values, penalty,
time, the three gaps, and the feasibility fields, each tagged with its
(size, sample, [classical/quantum], strategy) indices — has no duplicate
entry. -/
theorem C8_write_once (env : Env) (test_set : String) (bvars : List ℕ)
    (n_samples : ℕ) (M_strategies : List String) (ag agq aga : Bool) :
    (runLog (run_test env test_set bvars n_samples M_strategies ag agq aga)).Nodup := by
  rw [run_test]
  cases hres : sizeLoop env test_set n_samples M_strategies ag agq aga bvars 0
      (Datas.init bvars) with
  | error e => simp [runLog]
  | ok out =>
    simp only [runLog]
    exact (sizeLoop_ok_log env test_set n_samples M_strategies ag agq aga bvars 0
      (Datas.init bvars) out hres).2
